import Mathlib

/-!
Verification of the note-interval skip list in `src/engine/src/skip_list.rs`.

The Rust code stores `NoteBox` intervals (f32 beats) in a probabilistic skip
list whose nodes live in a slab arena and reference each other through
`SlabKey` integer handles.  We embed the code shallowly:

* beats (`f32` in the source) are modelled as rationals `ℚ`, preserving the
  ordered-field comparisons the code performs;
* the two slab arenas (`notes()` and `nodes()`) are modelled as lists, with a
  handle being the index of the record in the list; `init_state` (not under
  `src/`) reserves slot 0 of each arena, so both model arenas start with a
  dummy record in slot 0 and every issued handle is positive;
* the random level generator is modelled as a function of the stream of coin
  flips it consumes; `insert`, whose only randomness is the generated level,
  takes the level as an explicit argument;
* `unimplemented!()` (a guaranteed panic, i.e. no normal return) is modelled
  as `none` in an `Option` result.
-/

namespace SkipListModel

/-- `NOTE_SKIP_LIST_LEVELS`.  Modelled from the spec: the constant itself is
defined outside `src/`; the spec fixes `L = 5`. -/
def NOTE_SKIP_LIST_LEVELS : Nat := 5

/-- One stored interval.  Modelled from the spec: the struct is declared
outside `src/`; the spec gives `{start: f32, end: f32}` with the total order
by `(start, end)`. -/
structure NoteBox where
  start_beat : ℚ
  end_beat : ℚ
deriving DecidableEq, Repr

/-- The `(start, end)` lexicographic order on note boxes, the derived `Ord`
the source sorts by. -/
def noteLe (a b : NoteBox) : Prop :=
  a.start_beat < b.start_beat ∨
    (a.start_beat = b.start_beat ∧ a.end_beat ≤ b.end_beat)

instance : DecidableRel noteLe := fun a b => by
  unfold noteLe; infer_instance

instance : IsTrans NoteBox noteLe where
  trans a b c hab hbc := by
    rcases hab with h | ⟨h, h'⟩ <;> rcases hbc with g | ⟨g, g'⟩
    · exact Or.inl (lt_trans h g)
    · exact Or.inl (g ▸ h)
    · exact Or.inl (h ▸ g)
    · exact Or.inr ⟨h.trans g, le_trans h' g'⟩

instance : IsAntisymm NoteBox noteLe where
  antisymm a b hab hba := by
    rcases hab with h | ⟨h, h'⟩ <;> rcases hba with g | ⟨g, g'⟩
    · exact absurd (lt_trans h g) (lt_irrefl _)
    · exact absurd h (g ▸ lt_irrefl _)
    · exact absurd g (h ▸ lt_irrefl _)
    · cases a; cases b
      simp only [NoteBox.mk.injEq]
      exact ⟨h, le_antisymm h' g'⟩

instance : IsTotal NoteBox noteLe where
  total a b := by
    rcases lt_trichotomy a.start_beat b.start_beat with h | h | h
    · exact Or.inl (Or.inl h)
    · rcases le_total a.end_beat b.end_beat with h' | h'
      · exact Or.inl (Or.inr ⟨h, h'⟩)
      · exact Or.inr (Or.inr ⟨h.symm, h'⟩)
    · exact Or.inr (Or.inl h)

/-- A skip-list node: the handle of its payload interval and one optional
next-node handle per level (the Rust
`links: [Option<SlabKey<NoteSkipListNode>>; NOTE_SKIP_LIST_LEVELS]`, widened
to a total function on `Nat`; only indices `< NOTE_SKIP_LIST_LEVELS` are ever
read or written). -/
structure NoteSkipListNode where
  val_slot_key : Nat
  links : Nat → Option Nat

/-- The two slab arenas (`notes()` and `nodes()`); a handle is a list index. -/
structure Store where
  notes : List NoteBox
  nodes : List NoteSkipListNode

/-- A single line's skip list: just the optional head handle. -/
structure NoteSkipList where
  head_key : Option Nat

def dummyNote : NoteBox := ⟨0, 0⟩

def dummyNode : NoteSkipListNode := ⟨0, fun _ => none⟩

/-- Modelled from the spec: `init_state` (outside `src/`) sets up the two
arenas; slot 0 of a slab-backed arena is reserved so that every issued handle
is non-zero.  We reserve it with a dummy record. -/
def initStore : Store := ⟨[dummyNote], [dummyNode]⟩

/-- Dereference a note handle (the `Deref` impl for `SlabKey<NoteBox>`).  The
Rust code panics on an invalid handle; all handles the verified operations
produce are in bounds, so we use a total lookup with a dummy default. -/
def noteAt (s : Store) (k : Nat) : NoteBox := s.notes.getD k dummyNote

/-- Dereference a node handle (the `Deref` impl for
`SlabKey<NoteSkipListNode>`). -/
def nodeAt (s : Store) (k : Nat) : NoteSkipListNode := s.nodes.getD k dummyNode

/-- The interval stored at node `k`. -/
def valAt (s : Store) (k : Nat) : NoteBox := noteAt s (nodeAt s k).val_slot_key

def startAt (s : Store) (k : Nat) : ℚ := (valAt s k).start_beat

def endAt (s : Store) (k : Nat) : ℚ := (valAt s k).end_beat

def linkAt (s : Store) (k lvl : Nat) : Option Nat := (nodeAt s k).links lvl

/-- Overwrite the node record in slot `k` (a `DerefMut` store). -/
def setNode (s : Store) (k : Nat) (n : NoteSkipListNode) : Store :=
  ⟨s.notes, s.nodes.set k n⟩

/-- `NoteSkipListNode::contains_beat`. -/
def contains_beat (s : Store) (k : Nat) (beat : ℚ) : Prop :=
  startAt s k ≤ beat ∧ beat ≤ endAt s k

instance (s : Store) (k : Nat) (beat : ℚ) : Decidable (contains_beat s k beat) := by
  unfold contains_beat; infer_instance

/-- `blank_shortcuts`: an all-`None` link array. -/
def blank_shortcuts : Nat → Option Nat := fun _ => none

/-- The loop body of `get_skip_list_level`: up to `n` coin flips, counting
leading "continue" (`false`) flips; a `true` flip breaks the loop. -/
def levelFrom : Nat → List Bool → Nat
  | _, [] => 0
  | 0, _ => 0
  | n + 1, b :: rest => if b then 0 else levelFrom n rest + 1

/-- `get_skip_list_level`, as a function of the stream of fair coin flips
drawn from the global RNG. -/
def get_skip_list_level (flips : List Bool) : Nat :=
  levelFrom (NOTE_SKIP_LIST_LEVELS - 1) flips

/-- All coin-flip sequences of length `n` (each equally likely for a fair
coin). -/
def allFlipSeqs : Nat → List (List Bool)
  | 0 => [[]]
  | n + 1 => (allFlipSeqs n).map (fun l => true :: l) ++
      (allFlipSeqs n).map (fun l => false :: l)

/-- `SlabKey::<T>::from(usize)`: the slot index is cast `usize → u32` and
wrapped in `NonZeroU32` (callers only pass non-zero slab indices). -/
def slabKeyFrom (n : Nat) : Nat := n % 2 ^ 32

/-- `SlabKey::key`: the `u32` handle is widened back to `usize`. -/
def slabKeyKey (k : Nat) : Nat := k

/-- `NoteSkipList::remove` is `unimplemented!()`: it panics unconditionally,
so the model returns no normal result for any input. -/
def remove (s : Store) (l : NoteSkipList) (beat : ℚ) :
    Option (Store × NoteSkipList) :=
  none

/-- Forward iteration (`NoteSkipListIterator`): follow level-0 links,
yielding a copy of each payload.  The Rust iterator needs no fuel; the model
uses the arena size as fuel, which bounds the chain length of every
well-formed list. -/
def iterFrom (s : Store) : Nat → Option Nat → List NoteBox
  | _, none => []
  | 0, some _ => []
  | fuel + 1, some k => valAt s k :: iterFrom s fuel (linkAt s k 0)

/-- The list of intervals produced by `NoteSkipList::iter`. -/
def toList (s : Store) (l : NoteSkipList) : List NoteBox :=
  iterFrom s s.nodes.length l.head_key

/-- The node-key chain obtained by following level-0 links (the spine
`NoteSkipListNodeIterator` walks). -/
def keysFrom (s : Store) : Nat → Option Nat → List Nat
  | _, none => []
  | 0, some _ => []
  | fuel + 1, some k => k :: keysFrom s fuel (linkAt s k 0)

/-- `NoteSkipListNode::search`.  The recursion is over `(node, link_level)`:
at each node the loop walks `link_level` from `NOTE_SKIP_LIST_LEVELS - 1`
down to 0; taking a shortcut whose end is still `< target` records it as the
predecessor for all levels `0..=link_level` and restarts at the shortcut node
from the top level.  The Rust recursion is unbounded; the model charges one
fuel unit per loop step, and callers supply fuel that is ample for every
well-formed list. -/
def searchGo (s : Store) (target : ℚ) : Nat → Nat → Nat → (Nat → Nat) → Nat → Nat
  | 0, _, _, levels => levels
  | fuel + 1, k, link_level, levels =>
    match linkAt s k link_level with
    | some sk =>
      if endAt s sk < target then
        searchGo s target fuel sk (NOTE_SKIP_LIST_LEVELS - 1)
          (fun m => if m ≤ link_level then sk else levels m)
      else
        let levels' := fun m => if m = link_level then k else levels m
        if link_level = 0 then levels'
        else searchGo s target fuel k (link_level - 1) levels'
    | none =>
      if link_level = 0 then levels
      else searchGo s target fuel k (link_level - 1) levels

/-- `search` entry point: start at the top level. -/
def search (s : Store) (fuel k : Nat) (target : ℚ) (levels : Nat → Nat) :
    Nat → Nat :=
  searchGo s target fuel k (NOTE_SKIP_LIST_LEVELS - 1) levels

/-- The fuel every caller of `search` supplies; far more than the number of
loop steps any search over a well-formed list can take. -/
def searchFuel (s : Store) : Nat := 6 * (s.nodes.length + 1)

/-- One iteration of the splice loop in `NoteSkipList::insert`: at level `i`,
the new node inherits the predecessor's level-`i` link and the predecessor's
level-`i` link is pointed at the new node. -/
def spliceOne (s : Store) (newKey predKey i : Nat) : Store :=
  let nn := nodeAt s newKey
  let s' := setNode s newKey
    ⟨nn.val_slot_key, fun j => if j = i then linkAt s predKey i else nn.links j⟩
  let pred := nodeAt s' predKey
  setNode s' predKey
    ⟨pred.val_slot_key, fun j => if j = i then some newKey else pred.links j⟩

/-- The splice loop `for i in 0..=level`, run in ascending level order. -/
def spliceUpTo (s : Store) (newKey : Nat) (levels : Nat → Nat) :
    Nat → Store
  | 0 => spliceOne s newKey (levels 0) 0
  | i + 1 => spliceOne (spliceUpTo s newKey levels i) newKey (levels (i + 1)) (i + 1)

/-- The allocation step of `insert`: the interval enters the payload arena
and a fresh all-blank node holding its handle enters the node arena; the new
handles are the old arena sizes. -/
def bump (s : Store) (note : NoteBox) : Store :=
  ⟨s.notes ++ [note], s.nodes ++ [⟨s.notes.length, blank_shortcuts⟩]⟩

/-- `NoteSkipList::insert`.  The generated level (the only randomness) is an
explicit argument; the callers of the model quantify over it. -/
def insert (s : Store) (l : NoteSkipList) (note : NoteBox) (level : Nat) :
    Store × NoteSkipList :=
  let noteKey := s.notes.length
  let new_node_key := s.nodes.length
  let s2 : Store := bump s note
  match l.head_key with
  | none => (s2, ⟨some new_node_key⟩)
  | some head_key =>
    if note.start_beat < endAt s2 head_key then
      let headLinks := (nodeAt s2 head_key).links
      let s3 := setNode s2 new_node_key
        ⟨noteKey, fun i => if i ≤ level then some head_key else headLinks i⟩
      let oldHead := nodeAt s3 head_key
      let s4 := setNode s3 head_key
        ⟨oldHead.val_slot_key,
          fun i => if level + 1 ≤ i ∧ i < NOTE_SKIP_LIST_LEVELS then none
            else oldHead.links i⟩
      (s4, ⟨some new_node_key⟩)
    else
      let levels := search s2 (searchFuel s2) head_key note.start_beat
        (fun _ => head_key)
      (spliceUpTo s2 new_node_key levels level, l)

/-- Fold a whole sequence of `(interval, generated level)` inserts, starting
from a given state. -/
def insertAll (p : Store × NoteSkipList) :
    List (NoteBox × Nat) → Store × NoteSkipList
  | [] => p
  | (note, level) :: rest => insertAll (insert p.1 p.2 note level) rest

/-- The empty skip list. -/
def emptyList : NoteSkipList := ⟨none⟩

/-- `NoteLines`: one independent skip list per track line. -/
structure NoteLines where
  lines : List NoteSkipList

/-- `NoteLines::new`. -/
def NoteLines.new (count : Nat) : NoteLines :=
  ⟨List.replicate count emptyList⟩

/-- `NoteLines::get_bounds`.  Out-of-range line indices are a fatal indexing
error in Rust; the model's callers stay in range. -/
def get_bounds (s : Store) (nl : NoteLines) (line_ix : Nat) (beat : ℚ) :
    Option (ℚ × Option ℚ) :=
  let line := nl.lines.getD line_ix emptyList
  match line.head_key with
  | none => some (0, none)
  | some head_key =>
    if contains_beat s head_key beat then none
    else if beat < startAt s head_key then some (0, some (startAt s head_key))
    else
      let levels := search s (searchFuel s) head_key beat (fun _ => head_key)
      let preceding_key := levels 0
      match linkAt s preceding_key 0 with
      | none => some (endAt s preceding_key, none)
      | some following_key =>
        if contains_beat s following_key beat then none
        else some (endAt s preceding_key, some (startAt s following_key))

/-- `NoteLines::insert`. -/
def NoteLines.insert (s : Store) (nl : NoteLines) (line_ix : Nat)
    (note : NoteBox) (level : Nat) : Store × NoteLines :=
  let line := nl.lines.getD line_ix emptyList
  let (s', line') := SkipListModel.insert s line note level
  (s', ⟨nl.lines.set line_ix line'⟩)

/-! ## Level generator (claim C6) -/

theorem levelFrom_le (n : Nat) (flips : List Bool) : levelFrom n flips ≤ n := by
  induction n generalizing flips with
  | zero => cases flips <;> simp [levelFrom]
  | succ n ih =>
    cases flips with
    | nil => simp [levelFrom]
    | cons b rest =>
      by_cases hb : b <;> simp [levelFrom, hb]
      exact ih rest

theorem levelFrom_eq_min (n : Nat) (flips : List Bool) :
    levelFrom n flips = min (flips.takeWhile (fun b => b = false)).length n := by
  induction n generalizing flips with
  | zero => cases flips <;> simp [levelFrom]
  | succ n ih =>
    cases flips with
    | nil => simp [levelFrom]
    | cons b rest =>
      by_cases hb : b <;>
        simp [levelFrom, hb, List.takeWhile, ih rest, Nat.succ_min_succ]

/-- C6: the level generator always returns a value in `[0, L-1]` (`L = 5`);
over the stream of fair coin flips it returns the number of consecutive
"continue" (`false`) flips before the first "stop" (`true`) flip, capped at
`L-1`; and counting over all 16 equally likely length-4 flip sequences,
`P(level = k) = 2^-(k+1)` for `k < L-1` and `P(level = L-1) = 2^-(L-1)`. -/
theorem get_skip_list_level_spec :
    (∀ flips, get_skip_list_level flips ≤ NOTE_SKIP_LIST_LEVELS - 1) ∧
    (∀ flips, get_skip_list_level flips =
      min (flips.takeWhile (fun b => b = false)).length
        (NOTE_SKIP_LIST_LEVELS - 1)) ∧
    (∀ k, k < NOTE_SKIP_LIST_LEVELS - 1 →
      ((allFlipSeqs (NOTE_SKIP_LIST_LEVELS - 1)).filter
          (fun l => get_skip_list_level l = k)).length * 2 ^ (k + 1) =
        2 ^ (NOTE_SKIP_LIST_LEVELS - 1)) ∧
    ((allFlipSeqs (NOTE_SKIP_LIST_LEVELS - 1)).filter
        (fun l => get_skip_list_level l = NOTE_SKIP_LIST_LEVELS - 1)).length *
        2 ^ (NOTE_SKIP_LIST_LEVELS - 1) =
      2 ^ (NOTE_SKIP_LIST_LEVELS - 1) :=
  ⟨fun flips => levelFrom_le _ flips,
   fun flips => levelFrom_eq_min _ flips,
   by decide, by decide⟩

/-! ## Unimplemented `remove` (claim C7) -/

/-- C7: `NoteSkipList::remove` is `unimplemented!()`: for every state and
every beat it fails loudly (modelled as `none`, i.e. no normal return), so it
never acts as a silent no-op that reports success. -/
theorem remove_never_returns (s : Store) (l : NoteSkipList) (beat : ℚ) :
    remove s l beat = none := rfl

/-! ## Slab-key round trip (claim C10) -/

/-- C10: for every slot index `1 ≤ n < 2^32`, building a handle from `n` and
reading the key back yields `n`, and the stored handle value is non-zero, so
the reserved "absent" value 0 never collides with an issued handle. -/
theorem slab_key_roundtrip (n : Nat) (h1 : 1 ≤ n) (h2 : n < 2 ^ 32) :
    slabKeyKey (slabKeyFrom n) = n ∧ slabKeyFrom n ≠ 0 := by
  constructor
  · show n % 2 ^ 32 = n
    exact Nat.mod_eq_of_lt h2
  · show n % 2 ^ 32 ≠ 0
    rw [Nat.mod_eq_of_lt h2]
    omega

/-- Witness for C10 at the concrete slot index 7. -/
theorem slab_key_roundtrip_witness :
    slabKeyKey (slabKeyFrom 7) = 7 ∧ slabKeyFrom 7 ≠ 0 :=
  slab_key_roundtrip 7 (by decide) (by decide)

/-! ## Store update lemmas -/

theorem setNode_notes (s : Store) (k : Nat) (n : NoteSkipListNode) :
    (setNode s k n).notes = s.notes := rfl

theorem setNode_length (s : Store) (k : Nat) (n : NoteSkipListNode) :
    (setNode s k n).nodes.length = s.nodes.length := List.length_set s.nodes k n

theorem nodeAt_setNode_self (s : Store) (k : Nat) (n : NoteSkipListNode)
    (h : k < s.nodes.length) : nodeAt (setNode s k n) k = n := by
  simp [nodeAt, setNode, List.getD, List.getElem?_set_self, h]

theorem nodeAt_setNode_ne (s : Store) (k : Nat) (n : NoteSkipListNode)
    (q : Nat) (h : q ≠ k) : nodeAt (setNode s k n) q = nodeAt s q := by
  simp [nodeAt, setNode, List.getD, List.getElem?_set_ne (Ne.symm h)]

theorem noteAt_setNode (s : Store) (k : Nat) (n : NoteSkipListNode) (j : Nat) :
    noteAt (setNode s k n) j = noteAt s j := rfl

/-- Index into the node-key chain; out-of-range reads default to 0 and are
always guarded by a length bound. -/
def gk (ks : List Nat) (i : Nat) : Nat := ks.getD i 0

theorem gk_eq_getElem (ks : List Nat) (i : Nat) (h : i < ks.length) :
    gk ks i = ks[i] := by
  simp [gk, List.getD, List.getElem?_eq_getElem h]

theorem gk_cons_zero (k : Nat) (ks : List Nat) : gk (k :: ks) 0 = k := rfl

theorem gk_cons_succ (k : Nat) (ks : List Nat) (i : Nat) :
    gk (k :: ks) (i + 1) = gk ks i := rfl

/-- The level-0 links of the store spell out exactly the chain `ks` starting
from the handle `o`. -/
def linked (s : Store) : Option Nat → List Nat → Prop
  | o, [] => o = none
  | o, k :: ks => o = some k ∧ linked s (linkAt s k 0) ks

theorem linked_congr {s s' : Store} {o : Option Nat} {ks : List Nat}
    (h : ∀ k ∈ ks, linkAt s' k 0 = linkAt s k 0)
    (hl : linked s o ks) : linked s' o ks := by
  induction ks generalizing o with
  | nil => exact hl
  | cons k ks ih =>
    obtain ⟨rfl, hrest⟩ := hl
    refine ⟨rfl, ?_⟩
    rw [h k (List.mem_cons_self k ks)]
    exact ih (fun q hq => h q (List.mem_cons_of_mem _ hq)) hrest

theorem linked_link {s : Store} {o : Option Nat} {ks : List Nat}
    (h : linked s o ks) :
    ∀ i, i + 1 < ks.length → linkAt s (gk ks i) 0 = some (gk ks (i + 1)) := by
  induction ks generalizing o with
  | nil => intro i hi; simp at hi
  | cons k ks ih =>
    obtain ⟨rfl, hrest⟩ := h
    intro i hi
    cases i with
    | zero =>
      cases ks with
      | nil => simp at hi
      | cons k' ks' =>
        obtain ⟨hk', _⟩ := hrest
        simpa [gk_cons_zero, gk_cons_succ] using hk'
    | succ i =>
      rw [gk_cons_succ, gk_cons_succ]
      exact ih hrest i (by simpa using hi)

theorem linked_last {s : Store} {o : Option Nat} {ks : List Nat}
    (h : linked s o ks) (hne : 0 < ks.length) :
    linkAt s (gk ks (ks.length - 1)) 0 = none := by
  induction ks generalizing o with
  | nil => simp at hne
  | cons k ks ih =>
    obtain ⟨rfl, hrest⟩ := h
    cases ks with
    | nil => simpa [gk_cons_zero, linked] using hrest
    | cons k' ks' =>
      have := ih hrest (by simp)
      simpa [gk_cons_succ, List.length_cons] using this

theorem linked_head {s : Store} {o : Option Nat} {ks : List Nat}
    (h : linked s o ks) :
    o = if ks.length = 0 then none else some (gk ks 0) := by
  cases ks with
  | nil => simpa using h
  | cons k ks => simpa [gk_cons_zero] using h.1

theorem linked_of_pos (s : Store) (o : Option Nat) (ks : List Nat)
    (h0 : o = if ks.length = 0 then none else some (gk ks 0))
    (hl : ∀ i, i + 1 < ks.length → linkAt s (gk ks i) 0 = some (gk ks (i + 1)))
    (hlast : 0 < ks.length → linkAt s (gk ks (ks.length - 1)) 0 = none) :
    linked s o ks := by
  induction ks generalizing o with
  | nil => simpa using h0
  | cons k ks ih =>
    refine ⟨by simpa [gk_cons_zero] using h0, ?_⟩
    apply ih
    · cases ks with
      | nil => simpa [gk_cons_zero] using hlast (by simp)
      | cons k' ks' =>
        have := hl 0 (by simp)
        simpa [gk_cons_zero, gk_cons_succ] using this
    · intro i hi
      have := hl (i + 1) (by simpa using hi)
      simpa [gk_cons_succ] using this
    · intro hne
      have := hlast (by simp)
      cases ks with
      | nil => simp at hne
      | cons k' ks' => simpa [gk_cons_succ, List.length_cons] using this

theorem iterFrom_linked {s : Store} {o : Option Nat} {ks : List Nat}
    (h : linked s o ks) :
    ∀ fuel, ks.length ≤ fuel → iterFrom s fuel o = ks.map (valAt s) := by
  induction ks generalizing o with
  | nil => intro fuel _; rw [h]; cases fuel <;> rfl
  | cons k ks ih =>
    intro fuel hf
    obtain ⟨rfl, hrest⟩ := h
    cases fuel with
    | zero => simp at hf
    | succ fuel =>
      simp only [iterFrom, List.map]
      rw [ih hrest fuel (by simpa using hf)]

/-- The inductive well-formedness invariant of a single line's chain `ks`:
all handles in bounds, all intervals well formed, the stored intervals
pairwise strictly disjoint in chain order, and every link (at every level)
pointing strictly forward within the chain. -/
structure Inv (s : Store) (ks : List Nat) : Prop where
  bounded : ∀ i, i < ks.length → gk ks i < s.nodes.length
  valBounded : ∀ i, i < ks.length →
    (nodeAt s (gk ks i)).val_slot_key < s.notes.length
  wf : ∀ i, i < ks.length → startAt s (gk ks i) ≤ endAt s (gk ks i)
  ordered : ∀ i j, i < j → j < ks.length →
    endAt s (gk ks i) < startAt s (gk ks j)
  linksFwd : ∀ i, i < ks.length → ∀ lvl tgt,
    linkAt s (gk ks i) lvl = some tgt →
    ∃ j, i < j ∧ j < ks.length ∧ gk ks j = tgt

theorem Inv.distinct {s : Store} {ks : List Nat} (h : Inv s ks) :
    ∀ i j, i < j → j < ks.length → gk ks i ≠ gk ks j := by
  intro i j hij hj heq
  have h1 := h.ordered i j hij hj
  have h2 := h.wf i (lt_trans hij hj)
  rw [heq] at h1 h2
  exact absurd (lt_of_le_of_lt h2 h1) (lt_irrefl _)

theorem Inv.nodup {s : Store} {ks : List Nat} (h : Inv s ks) : ks.Nodup := by
  rw [List.nodup_iff_getElem?_ne_getElem?]
  intro i j hij hj
  have hi := lt_trans hij hj
  have := h.distinct i j hij hj
  rw [gk_eq_getElem ks i hi, gk_eq_getElem ks j hj] at this
  rw [List.getElem?_eq_getElem hi, List.getElem?_eq_getElem hj]
  simpa using this

theorem Inv.length_le {s : Store} {ks : List Nat} (h : Inv s ks) :
    ks.length ≤ s.nodes.length := by
  classical
  have hnd := h.nodup
  have hsub : ks.toFinset ⊆ Finset.range s.nodes.length := by
    intro x hx
    rw [List.mem_toFinset] at hx
    obtain ⟨i, hi, rfl⟩ := List.mem_iff_getElem.mp hx
    have := h.bounded i hi
    rw [gk_eq_getElem ks i hi] at this
    simpa [Finset.mem_range] using this
  calc ks.length = ks.toFinset.card := (List.toFinset_card_of_nodup hnd).symm
    _ ≤ (Finset.range s.nodes.length).card := Finset.card_le_card hsub
    _ = s.nodes.length := Finset.card_range _

/-! ## Correctness of `search` -/

/-- The node `k` is a valid level-`m` predecessor for target `t`: its
level-`m` link is absent, or points at a node whose end has reached `t`. -/
def GOODL (s : Store) (t : ℚ) (k m : Nat) : Prop :=
  linkAt s k m = none ∨ ∃ tgt, linkAt s k m = some tgt ∧ t ≤ endAt s tgt

/-- Main loop invariant of `search`: run from position `i` of a chain whose
links all point strictly forward, with enough fuel, and with a predecessor
array whose entries all sit at or before `i`, carry ends `< t`, and are
either already valid predecessors or equal to the current node at a level the
loop has not yet processed.  The result array consists solely of valid
per-level predecessors with ends `< t`. -/
theorem searchGo_spec (s : Store) (ks : List Nat) (t : ℚ)
    (hfwd : ∀ i, i < ks.length → ∀ lvl tgt, linkAt s (gk ks i) lvl = some tgt →
      ∃ j, i < j ∧ j < ks.length ∧ gk ks j = tgt) :
    ∀ fuel i link_level levels,
      i < ks.length →
      link_level < NOTE_SKIP_LIST_LEVELS →
      endAt s (gk ks i) < t →
      link_level + 1 + 6 * (ks.length - 1 - i) ≤ fuel →
      (∀ m, m < NOTE_SKIP_LIST_LEVELS →
        ∃ jm, jm < ks.length ∧ levels m = gk ks jm ∧ endAt s (gk ks jm) < t ∧
          jm ≤ i ∧ (GOODL s t (gk ks jm) m ∨ (jm = i ∧ m ≤ link_level))) →
      ∀ m, m < NOTE_SKIP_LIST_LEVELS →
        ∃ jm, jm < ks.length ∧
          searchGo s t fuel (gk ks i) link_level levels m = gk ks jm ∧
          endAt s (gk ks jm) < t ∧ GOODL s t (gk ks jm) m := by
  intro fuel
  induction fuel with
  | zero => intro i link_level levels _ _ _ hfuel _; omega
  | succ fuel ih =>
    intro i link_level levels hi hll hend hfuel hlinv
    cases h : linkAt s (gk ks i) link_level with
    | some sk =>
      obtain ⟨j, hij, hjlen, hgkj⟩ := hfwd i hi link_level sk h
      by_cases hlt : endAt s sk < t
      · have heq : ∀ m, searchGo s t (fuel + 1) (gk ks i) link_level levels m =
            searchGo s t fuel sk (NOTE_SKIP_LIST_LEVELS - 1)
              (fun m => if m ≤ link_level then sk else levels m) m := by
          intro m; simp [searchGo, h, hlt]
        intro m hm
        rw [heq m]
        rw [← hgkj]
        refine ih j (NOTE_SKIP_LIST_LEVELS - 1) _ hjlen (by decide)
          (hgkj ▸ hlt) (by simp only [NOTE_SKIP_LIST_LEVELS] at *; omega) ?_ m hm
        intro m' hm'
        by_cases hc : m' ≤ link_level
        · exact ⟨j, hjlen, by simp [hc, hgkj], hgkj ▸ hlt, le_refl j,
            Or.inr ⟨rfl, by simp only [NOTE_SKIP_LIST_LEVELS] at *; omega⟩⟩
        · obtain ⟨jm, h1, h2, h3, h4, h5⟩ := hlinv m' hm'
          refine ⟨jm, h1, by simp [hc, h2], h3, by omega, ?_⟩
          rcases h5 with h5 | ⟨_, h5⟩
          · exact Or.inl h5
          · omega
      · by_cases h0 : link_level = 0
        · subst h0
          have heq : ∀ m, searchGo s t (fuel + 1) (gk ks i) 0 levels m =
              (fun m => if m = 0 then gk ks i else levels m) m := by
            intro m; simp [searchGo, h, hlt]
          intro m hm
          rw [heq m]
          by_cases hm0 : m = 0
          · exact ⟨i, hi, by simp [hm0], hend,
              Or.inr ⟨sk, hm0 ▸ h, not_lt.mp hlt⟩⟩
          · obtain ⟨jm, h1, h2, h3, _, h5⟩ := hlinv m hm
            refine ⟨jm, h1, by simp [hm0, h2], h3, ?_⟩
            rcases h5 with h5 | ⟨_, h5⟩
            · exact h5
            · omega
        · have heq : ∀ m, searchGo s t (fuel + 1) (gk ks i) link_level levels m =
              searchGo s t fuel (gk ks i) (link_level - 1)
                (fun m => if m = link_level then gk ks i else levels m) m := by
            intro m; simp [searchGo, h, hlt, h0]
          intro m hm
          rw [heq m]
          refine ih i (link_level - 1) _ hi (by simp only [NOTE_SKIP_LIST_LEVELS] at *; omega) hend (by simp only [NOTE_SKIP_LIST_LEVELS] at *; omega) ?_ m hm
          intro m' hm'
          by_cases hc : m' = link_level
          · exact ⟨i, hi, by simp [hc], hend, le_refl i,
              Or.inl (Or.inr ⟨sk, hc ▸ h, not_lt.mp hlt⟩)⟩
          · obtain ⟨jm, h1, h2, h3, h4, h5⟩ := hlinv m' hm'
            refine ⟨jm, h1, by simp [hc, h2], h3, h4, ?_⟩
            rcases h5 with h5 | ⟨h5, h6⟩
            · exact Or.inl h5
            · exact Or.inr ⟨h5, by omega⟩
    | none =>
      by_cases h0 : link_level = 0
      · subst h0
        have heq : ∀ m, searchGo s t (fuel + 1) (gk ks i) 0 levels m = levels m := by
          intro m; simp [searchGo, h]
        intro m hm
        rw [heq m]
        obtain ⟨jm, h1, h2, h3, _, h5⟩ := hlinv m hm
        refine ⟨jm, h1, h2, h3, ?_⟩
        rcases h5 with h5 | ⟨h5, h6⟩
        · exact h5
        · have : m = 0 := by omega
          subst this; subst h5
          exact Or.inl h
      · have heq : ∀ m, searchGo s t (fuel + 1) (gk ks i) link_level levels m =
            searchGo s t fuel (gk ks i) (link_level - 1) levels m := by
          intro m; simp [searchGo, h, h0]
        intro m hm
        rw [heq m]
        refine ih i (link_level - 1) _ hi (by simp only [NOTE_SKIP_LIST_LEVELS] at *; omega) hend (by simp only [NOTE_SKIP_LIST_LEVELS] at *; omega) ?_ m hm
        intro m' hm'
        obtain ⟨jm, h1, h2, h3, h4, h5⟩ := hlinv m' hm'
        refine ⟨jm, h1, h2, h3, h4, ?_⟩
        rcases h5 with h5 | ⟨h5, h6⟩
        · exact Or.inl h5
        · by_cases hc : m' = link_level
          · subst hc; subst h5
            exact Or.inl (Or.inl h)
          · exact Or.inr ⟨h5, by omega⟩

/-- Full specification of a `search` from the first node of a chain: the
result array holds, at every level, a valid per-level predecessor that sits
at or before the last chain position whose end is `< t`; entry 0 is exactly
that last position. -/
theorem search_spec (s : Store) (ks : List Nat) (t : ℚ) (fuel : Nat)
    (hlinked : linked s (some (gk ks 0)) ks)
    (hinv : Inv s ks)
    (hlen : 0 < ks.length)
    (hend : endAt s (gk ks 0) < t)
    (hfuel : NOTE_SKIP_LIST_LEVELS + 6 * ks.length ≤ fuel) :
    ∃ j₀, j₀ < ks.length ∧
      search s fuel (gk ks 0) t (fun _ => gk ks 0) 0 = gk ks j₀ ∧
      endAt s (gk ks j₀) < t ∧
      (j₀ + 1 < ks.length → t ≤ endAt s (gk ks (j₀ + 1))) ∧
      (∀ jm, jm < ks.length → endAt s (gk ks jm) < t → jm ≤ j₀) ∧
      ∀ m, m < NOTE_SKIP_LIST_LEVELS → ∃ jm, jm ≤ j₀ ∧ jm < ks.length ∧
        search s fuel (gk ks 0) t (fun _ => gk ks 0) m = gk ks jm ∧
        endAt s (gk ks jm) < t ∧ GOODL s t (gk ks jm) m := by
  have hmain := searchGo_spec s ks t hinv.linksFwd fuel 0
    (NOTE_SKIP_LIST_LEVELS - 1) (fun _ => gk ks 0) hlen (by decide) hend
    (by simp only [NOTE_SKIP_LIST_LEVELS] at *; omega)
    (fun m hm => ⟨0, hlen, rfl, hend, le_refl 0,
      Or.inr ⟨rfl, by simp only [NOTE_SKIP_LIST_LEVELS] at *; omega⟩⟩)
  obtain ⟨j₀, hj₀len, hres0, hend0, hgood0⟩ := hmain 0 (by decide)
  have hnext : j₀ + 1 < ks.length → t ≤ endAt s (gk ks (j₀ + 1)) := by
    intro hlt
    rcases hgood0 with hnone | ⟨tgt, hsome, htle⟩
    · rw [linked_link hlinked j₀ hlt] at hnone
      exact absurd hnone (by simp)
    · rw [linked_link hlinked j₀ hlt] at hsome
      obtain rfl : gk ks (j₀ + 1) = tgt := by simpa using hsome
      exact htle
  have hmax : ∀ jm, jm < ks.length → endAt s (gk ks jm) < t → jm ≤ j₀ := by
    intro jm hjm hjend
    by_contra hgt
    push_neg at hgt
    have h1lt : j₀ + 1 < ks.length := by omega
    have ht1 := hnext h1lt
    rcases Nat.eq_or_lt_of_le (Nat.succ_le_of_lt hgt) with heq | hlt
    · rw [show j₀ + 1 = jm from heq] at ht1
      exact absurd (lt_of_le_of_lt ht1 hjend) (lt_irrefl _)
    · have hord := hinv.ordered (j₀ + 1) jm hlt hjm
      have hw := hinv.wf jm hjm
      have hlt2 : t < endAt s (gk ks jm) :=
        lt_of_le_of_lt ht1 (lt_of_lt_of_le hord hw)
      exact absurd (lt_trans hlt2 hjend) (lt_irrefl _)
  refine ⟨j₀, hj₀len, hres0, hend0, hnext, hmax, ?_⟩
  intro m hm
  obtain ⟨jm, hjmlen, hjres, hjend, hjgood⟩ := hmain m hm
  exact ⟨jm, hmax jm hjmlen hjend, hjmlen, hjres, hjend, hjgood⟩

/-! ## Effect of the splice loop -/

theorem spliceOne_notes (s : Store) (nk pk i : Nat) :
    (spliceOne s nk pk i).notes = s.notes := rfl

theorem spliceOne_length (s : Store) (nk pk i : Nat) :
    (spliceOne s nk pk i).nodes.length = s.nodes.length := by
  simp [spliceOne, setNode, List.length_set]

theorem spliceOne_nk (s : Store) (nk pk i : Nat)
    (hnk : nk < s.nodes.length) (hne : pk ≠ nk) :
    nodeAt (spliceOne s nk pk i) nk =
      ⟨(nodeAt s nk).val_slot_key,
        fun j => if j = i then linkAt s pk i else (nodeAt s nk).links j⟩ := by
  unfold spliceOne
  rw [nodeAt_setNode_ne _ _ _ _ (Ne.symm hne)]
  rw [nodeAt_setNode_self _ _ _ hnk]

theorem spliceOne_pk (s : Store) (nk pk i : Nat)
    (hnk : nk < s.nodes.length) (hpk : pk < s.nodes.length) (hne : pk ≠ nk) :
    nodeAt (spliceOne s nk pk i) pk =
      ⟨(nodeAt s pk).val_slot_key,
        fun j => if j = i then some nk else (nodeAt s pk).links j⟩ := by
  dsimp only [spliceOne]
  rw [nodeAt_setNode_self _ _ _ (by rw [setNode_length]; exact hpk)]
  rw [nodeAt_setNode_ne _ _ _ _ hne]

theorem spliceOne_other (s : Store) (nk pk i q : Nat)
    (hq1 : q ≠ nk) (hq2 : q ≠ pk) :
    nodeAt (spliceOne s nk pk i) q = nodeAt s q := by
  unfold spliceOne
  rw [nodeAt_setNode_ne _ _ _ _ hq2, nodeAt_setNode_ne _ _ _ _ hq1]

theorem spliceUpTo_spec (s : Store) (nk : Nat) (lv : Nat → Nat) :
    ∀ lim,
      nk < s.nodes.length →
      (∀ j, j ≤ lim → lv j < s.nodes.length ∧ lv j ≠ nk) →
      (spliceUpTo s nk lv lim).notes = s.notes ∧
      (spliceUpTo s nk lv lim).nodes.length = s.nodes.length ∧
      (∀ q, (nodeAt (spliceUpTo s nk lv lim) q).val_slot_key =
        (nodeAt s q).val_slot_key) ∧
      (∀ j, j ≤ lim → linkAt (spliceUpTo s nk lv lim) nk j = linkAt s (lv j) j) ∧
      (∀ j, lim < j → linkAt (spliceUpTo s nk lv lim) nk j = linkAt s nk j) ∧
      (∀ q j, q ≠ nk → linkAt (spliceUpTo s nk lv lim) q j =
        if j ≤ lim ∧ lv j = q then some nk else linkAt s q j) := by
  intro lim
  induction lim with
  | zero =>
    intro hnk hlv
    obtain ⟨hb0, hne0⟩ := hlv 0 (le_refl 0)
    have hstep : spliceUpTo s nk lv 0 = spliceOne s nk (lv 0) 0 := rfl
    rw [hstep]
    refine ⟨rfl, spliceOne_length s nk (lv 0) 0, ?_, ?_, ?_, ?_⟩
    · intro q
      by_cases hq1 : q = nk
      · rw [hq1, spliceOne_nk s nk (lv 0) 0 hnk hne0]
      · by_cases hq2 : q = lv 0
        · rw [hq2, spliceOne_pk s nk (lv 0) 0 hnk hb0 hne0]
        · rw [spliceOne_other s nk (lv 0) 0 q hq1 hq2]
    · intro j hj
      interval_cases j
      unfold linkAt
      rw [spliceOne_nk s nk (lv 0) 0 hnk hne0]
      simp [linkAt]
    · intro j hj
      unfold linkAt
      rw [spliceOne_nk s nk (lv 0) 0 hnk hne0]
      simp [Nat.pos_iff_ne_zero.mp hj, linkAt]
    · intro q j hq
      by_cases hq2 : q = lv 0
      · subst hq2
        unfold linkAt
        rw [spliceOne_pk s nk (lv 0) 0 hnk hb0 hne0]
        by_cases hj : j = 0 <;> simp [hj]
      · rw [show linkAt (spliceOne s nk (lv 0) 0) q j = linkAt s q j from by
          unfold linkAt; rw [spliceOne_other s nk (lv 0) 0 q hq hq2]]
        have hnot : ¬(j = 0 ∧ lv j = q) := by
          rintro ⟨hj0, hlvj⟩
          subst hj0
          exact hq2 hlvj.symm
        simp [hnot]
  | succ lim ih =>
    intro hnk hlv
    obtain ⟨hnotes, hlen, hval, hnklo, hnkhi, hother⟩ :=
      ih hnk (fun j hj => hlv j (le_trans hj (Nat.le_succ lim)))
    obtain ⟨hbS, hneS⟩ := hlv (lim + 1) (le_refl _)
    have hnk' : nk < (spliceUpTo s nk lv lim).nodes.length := by rw [hlen]; exact hnk
    have hbS' : lv (lim + 1) < (spliceUpTo s nk lv lim).nodes.length := by
      rw [hlen]; exact hbS
    have hstep : spliceUpTo s nk lv (lim + 1) =
        spliceOne (spliceUpTo s nk lv lim) nk (lv (lim + 1)) (lim + 1) := rfl
    refine ⟨by rw [hstep, spliceOne_notes]; exact hnotes,
      by rw [hstep, spliceOne_length]; exact hlen, ?_, ?_, ?_, ?_⟩
    · intro q
      rw [hstep]
      by_cases hq1 : q = nk
      · rw [hq1, spliceOne_nk _ nk (lv (lim + 1)) (lim + 1) hnk' hneS]
        exact hval nk
      · by_cases hq2 : q = lv (lim + 1)
        · subst hq2
          rw [spliceOne_pk _ nk (lv (lim + 1)) (lim + 1) hnk' hbS' hneS]
          exact hval _
        · rw [spliceOne_other _ nk (lv (lim + 1)) (lim + 1) q hq1 hq2]
          exact hval q
    · intro j hj
      rw [hstep]
      unfold linkAt
      rw [spliceOne_nk _ nk (lv (lim + 1)) (lim + 1) hnk' hneS]
      by_cases hje : j = lim + 1
      · subst hje
        simp only [if_pos rfl]
        rw [hother (lv (lim + 1)) (lim + 1) hneS]
        simp [linkAt]
      · simp only [if_neg hje]
        have hjlim : j ≤ lim := by omega
        exact hnklo j hjlim
    · intro j hj
      rw [hstep]
      unfold linkAt
      rw [spliceOne_nk _ nk (lv (lim + 1)) (lim + 1) hnk' hneS]
      have hje : j ≠ lim + 1 := by omega
      simp only [if_neg hje]
      exact hnkhi j (by omega)
    · intro q j hq
      rw [hstep]
      by_cases hq2 : q = lv (lim + 1)
      · subst hq2
        unfold linkAt
        rw [spliceOne_pk _ nk (lv (lim + 1)) (lim + 1) hnk' hbS' hneS]
        by_cases hje : j = lim + 1
        · subst hje; simp
        · simp only [if_neg hje]
          show linkAt (spliceUpTo s nk lv lim) (lv (lim + 1)) j = _
          rw [hother (lv (lim + 1)) j hq]
          have : (j ≤ lim + 1 ∧ lv j = lv (lim + 1)) ↔
              (j ≤ lim ∧ lv j = lv (lim + 1)) := by
            constructor
            · rintro ⟨h1, h2⟩; exact ⟨by omega, h2⟩
            · rintro ⟨h1, h2⟩; exact ⟨by omega, h2⟩
          simp only [this]
          rfl
      · rw [show linkAt (spliceOne (spliceUpTo s nk lv lim) nk (lv (lim + 1))
            (lim + 1)) q j = linkAt (spliceUpTo s nk lv lim) q j from by
          unfold linkAt
          rw [spliceOne_other _ nk (lv (lim + 1)) (lim + 1) q hq hq2]]
        rw [hother q j hq]
        have : (j ≤ lim + 1 ∧ lv j = q) ↔ (j ≤ lim ∧ lv j = q) := by
          constructor
          · rintro ⟨h1, h2⟩
            rcases Nat.lt_or_ge j (lim + 1) with hl | hl
            · exact ⟨by omega, h2⟩
            · exfalso
              have : j = lim + 1 := by omega
              subst this
              exact hq2 h2.symm
          · rintro ⟨h1, h2⟩; exact ⟨by omega, h2⟩
        simp only [this]

/-! ## Effect of the allocation step -/

theorem bump_notes_length (s : Store) (note : NoteBox) :
    (bump s note).notes.length = s.notes.length + 1 := by
  simp [bump]

theorem bump_nodes_length (s : Store) (note : NoteBox) :
    (bump s note).nodes.length = s.nodes.length + 1 := by
  simp [bump]

theorem nodeAt_bump_lt (s : Store) (note : NoteBox) (k : Nat)
    (h : k < s.nodes.length) : nodeAt (bump s note) k = nodeAt s k :=
  List.getD_append _ _ _ _ h

theorem nodeAt_bump_new (s : Store) (note : NoteBox) :
    nodeAt (bump s note) s.nodes.length = ⟨s.notes.length, blank_shortcuts⟩ := by
  unfold nodeAt bump
  rw [List.getD_append_right _ _ _ _ (le_refl _)]
  simp

theorem noteAt_bump_lt (s : Store) (note : NoteBox) (j : Nat)
    (h : j < s.notes.length) : noteAt (bump s note) j = noteAt s j :=
  List.getD_append _ _ _ _ h

theorem noteAt_bump_new (s : Store) (note : NoteBox) :
    noteAt (bump s note) s.notes.length = note := by
  unfold noteAt bump
  rw [List.getD_append_right _ _ _ _ (le_refl _)]
  simp

theorem valAt_bump_lt (s : Store) (note : NoteBox) (k : Nat)
    (h : k < s.nodes.length) (hv : (nodeAt s k).val_slot_key < s.notes.length) :
    valAt (bump s note) k = valAt s k := by
  unfold valAt
  rw [nodeAt_bump_lt s note k h, noteAt_bump_lt s note _ hv]

theorem valAt_bump_new (s : Store) (note : NoteBox) :
    valAt (bump s note) s.nodes.length = note := by
  unfold valAt
  rw [nodeAt_bump_new]
  exact noteAt_bump_new s note

theorem linkAt_bump_lt (s : Store) (note : NoteBox) (k lvl : Nat)
    (h : k < s.nodes.length) : linkAt (bump s note) k lvl = linkAt s k lvl := by
  unfold linkAt
  rw [nodeAt_bump_lt s note k h]

theorem linkAt_bump_new (s : Store) (note : NoteBox) (lvl : Nat) :
    linkAt (bump s note) s.nodes.length lvl = none := by
  unfold linkAt
  rw [nodeAt_bump_new]
  rfl

theorem mem_pos {ks : List Nat} {k : Nat} (h : k ∈ ks) :
    ∃ i, i < ks.length ∧ gk ks i = k := by
  obtain ⟨i, hi, rfl⟩ := List.mem_iff_getElem.mp h
  exact ⟨i, hi, gk_eq_getElem ks i hi⟩

theorem linked_bump {s : Store} {o : Option Nat} {ks : List Nat}
    (note : NoteBox) (hinv : Inv s ks) (h : linked s o ks) :
    linked (bump s note) o ks := by
  refine linked_congr ?_ h
  intro k hk
  obtain ⟨i, hi, rfl⟩ := mem_pos hk
  exact linkAt_bump_lt s note _ 0 (hinv.bounded i hi)

theorem Inv_bump {s : Store} {ks : List Nat} (note : NoteBox)
    (hinv : Inv s ks) : Inv (bump s note) ks := by
  have hb : ∀ i, i < ks.length → gk ks i < s.nodes.length := hinv.bounded
  have hval : ∀ i, i < ks.length →
      valAt (bump s note) (gk ks i) = valAt s (gk ks i) := fun i hi =>
    valAt_bump_lt s note _ (hb i hi) (hinv.valBounded i hi)
  refine ⟨?_, ?_, ?_, ?_, ?_⟩
  · intro i hi
    rw [bump_nodes_length]
    exact lt_trans (hb i hi) (Nat.lt_succ_self _)
  · intro i hi
    rw [bump_notes_length, nodeAt_bump_lt s note _ (hb i hi)]
    exact lt_trans (hinv.valBounded i hi) (Nat.lt_succ_self _)
  · intro i hi
    unfold startAt endAt
    rw [hval i hi]
    exact hinv.wf i hi
  · intro i j hij hj
    unfold startAt endAt
    rw [hval i (lt_trans hij hj), hval j hj]
    exact hinv.ordered i j hij hj
  · intro i hi lvl tgt hlink
    rw [linkAt_bump_lt s note _ lvl (hb i hi)] at hlink
    exact hinv.linksFwd i hi lvl tgt hlink


/-! ## Indexing the spliced chain -/

theorem startAt_bump_lt (s : Store) (note : NoteBox) (k : Nat)
    (h : k < s.nodes.length) (hv : (nodeAt s k).val_slot_key < s.notes.length) :
    startAt (bump s note) k = startAt s k := by
  unfold startAt
  rw [valAt_bump_lt s note k h hv]

theorem endAt_bump_lt (s : Store) (note : NoteBox) (k : Nat)
    (h : k < s.nodes.length) (hv : (nodeAt s k).val_slot_key < s.notes.length) :
    endAt (bump s note) k = endAt s k := by
  unfold endAt
  rw [valAt_bump_lt s note k h hv]

theorem splice_length (ks : List Nat) (nk n : Nat) (hn : n ≤ ks.length) :
    (ks.take n ++ nk :: ks.drop n).length = ks.length + 1 := by
  simp [List.length_take_of_le hn]
  omega

theorem gk_splice_lt (ks : List Nat) (nk n p : Nat) (hn : n ≤ ks.length)
    (hp : p < n) : gk (ks.take n ++ nk :: ks.drop n) p = gk ks p := by
  unfold gk
  rw [List.getD_append _ _ _ _ (by rw [List.length_take_of_le hn]; exact hp)]
  simp [List.getD, List.getElem?_take, hp]

theorem gk_splice_eq (ks : List Nat) (nk n : Nat) (hn : n ≤ ks.length) :
    gk (ks.take n ++ nk :: ks.drop n) n = nk := by
  unfold gk
  rw [List.getD_append_right _ _ _ _ (by rw [List.length_take_of_le hn])]
  rw [List.length_take_of_le hn]
  simp

theorem gk_splice_gt (ks : List Nat) (nk n p : Nat) (hn : n ≤ ks.length)
    (hp : n < p) : gk (ks.take n ++ nk :: ks.drop n) p = gk ks (p - 1) := by
  unfold gk
  rw [List.getD_append_right _ _ _ _
    (by rw [List.length_take_of_le hn]; omega)]
  rw [List.length_take_of_le hn]
  have h1 : p - n = (p - n - 1) + 1 := by omega
  rw [h1]
  show (ks.drop n).getD (p - n - 1) 0 = ks.getD (p - 1) 0
  have h2 : n + (p - n - 1) = p - 1 := by omega
  have h3 : (ks.drop n).getD (p - n - 1) 0 = ks.getD (n + (p - n - 1)) 0 := by
    simp [List.getD, List.getElem?_drop]
  rw [h3, h2]


/-! ## `insert` preserves the invariant -/

theorem insert_spec_empty (s : Store) (l : NoteSkipList) (note : NoteBox)
    (level : Nat) (hhead : l.head_key = none) :
    insert s l note level = (bump s note, ⟨some s.nodes.length⟩) := by
  unfold insert
  rw [hhead]

theorem linked_singleton_new (s : Store) (note : NoteBox) :
    linked (bump s note) (some s.nodes.length) [s.nodes.length] := by
  refine ⟨rfl, ?_⟩
  show linkAt (bump s note) s.nodes.length 0 = none
  exact linkAt_bump_new s note 0

theorem Inv_singleton_new (s : Store) (note : NoteBox)
    (hse : note.start_beat ≤ note.end_beat) :
    Inv (bump s note) [s.nodes.length] := by
  refine ⟨?_, ?_, ?_, ?_, ?_⟩
  · intro i hi
    obtain rfl : i = 0 := by simpa using hi
    rw [bump_nodes_length]
    exact Nat.lt_succ_self _
  · intro i hi
    obtain rfl : i = 0 := by simpa using hi
    rw [bump_notes_length]
    show (nodeAt (bump s note) s.nodes.length).val_slot_key < _
    rw [nodeAt_bump_new]
    exact Nat.lt_succ_self _
  · intro i hi
    obtain rfl : i = 0 := by simpa using hi
    show startAt (bump s note) s.nodes.length ≤ endAt (bump s note) s.nodes.length
    unfold startAt endAt
    rw [valAt_bump_new]
    exact hse
  · intro i j hij hj
    simp at hj
    omega
  · intro i hi lvl tgt hlink
    obtain rfl : i = 0 := by simpa using hi
    rw [show gk [s.nodes.length] 0 = s.nodes.length from rfl,
      linkAt_bump_new] at hlink
    exact absurd hlink (by simp)

/-- The store after the head-replacement branch of `insert`: first the fresh
node's links are written (levels `0..=k` to the old head, the rest copied
from the old head), then the old head's links above `k` are cleared. -/
def frontS3 (s : Store) (note : NoteBox) (level hk : Nat) : Store :=
  setNode (bump s note) s.nodes.length
    ⟨s.notes.length, fun i => if i ≤ level then some hk
      else (nodeAt (bump s note) hk).links i⟩

def frontS4 (s : Store) (note : NoteBox) (level hk : Nat) : Store :=
  setNode (frontS3 s note level hk) hk
    ⟨(nodeAt (frontS3 s note level hk) hk).val_slot_key,
      fun i => if level + 1 ≤ i ∧ i < NOTE_SKIP_LIST_LEVELS then none
        else (nodeAt (frontS3 s note level hk) hk).links i⟩

theorem insert_front_eq (s : Store) (l : NoteSkipList) (note : NoteBox)
    (level hk : Nat) (hhead : l.head_key = some hk)
    (hcond : note.start_beat < endAt (bump s note) hk) :
    insert s l note level =
      (frontS4 s note level hk, ⟨some s.nodes.length⟩) := by
  unfold insert frontS4 frontS3
  rw [hhead]
  simp only [if_pos hcond]

theorem frontS3_len (s : Store) (note : NoteBox) (level hk : Nat) :
    (frontS3 s note level hk).nodes.length = s.nodes.length + 1 := by
  unfold frontS3
  rw [setNode_length, bump_nodes_length]

theorem frontS4_len (s : Store) (note : NoteBox) (level hk : Nat) :
    (frontS4 s note level hk).nodes.length = s.nodes.length + 1 := by
  unfold frontS4
  rw [setNode_length, frontS3_len]

theorem frontS4_notes (s : Store) (note : NoteBox) (level hk : Nat) :
    (frontS4 s note level hk).notes = s.notes ++ [note] := rfl

theorem frontS3_hk (s : Store) (note : NoteBox) (level hk : Nat)
    (hkb : hk < s.nodes.length) :
    nodeAt (frontS3 s note level hk) hk = nodeAt s hk := by
  unfold frontS3
  rw [nodeAt_setNode_ne _ _ _ _ (by omega), nodeAt_bump_lt s note hk hkb]

theorem frontS4_nk (s : Store) (note : NoteBox) (level hk : Nat)
    (hkb : hk < s.nodes.length) :
    nodeAt (frontS4 s note level hk) s.nodes.length =
      ⟨s.notes.length, fun i => if i ≤ level then some hk
        else (nodeAt s hk).links i⟩ := by
  unfold frontS4
  rw [nodeAt_setNode_ne _ _ _ _ (by omega)]
  unfold frontS3
  rw [nodeAt_setNode_self _ _ _ (by rw [bump_nodes_length]; omega)]
  rw [nodeAt_bump_lt s note hk hkb]

theorem frontS4_hk (s : Store) (note : NoteBox) (level hk : Nat)
    (hkb : hk < s.nodes.length) :
    nodeAt (frontS4 s note level hk) hk =
      ⟨(nodeAt s hk).val_slot_key,
        fun i => if level + 1 ≤ i ∧ i < NOTE_SKIP_LIST_LEVELS then none
          else (nodeAt s hk).links i⟩ := by
  unfold frontS4
  rw [nodeAt_setNode_self _ _ _ (by rw [frontS3_len]; omega)]
  rw [frontS3_hk s note level hk hkb]

theorem frontS4_other (s : Store) (note : NoteBox) (level hk q : Nat)
    (hkb : hk < s.nodes.length) (hq1 : q ≠ hk) (hq2 : q ≠ s.nodes.length)
    (hqb : q < s.nodes.length) :
    nodeAt (frontS4 s note level hk) q = nodeAt s q := by
  unfold frontS4
  rw [nodeAt_setNode_ne _ _ _ _ hq1]
  unfold frontS3
  rw [nodeAt_setNode_ne _ _ _ _ hq2, nodeAt_bump_lt s note q hqb]

theorem noteAt_frontS4_lt (s : Store) (note : NoteBox) (level hk j : Nat)
    (hj : j < s.notes.length) :
    noteAt (frontS4 s note level hk) j = noteAt s j := by
  show (s.notes ++ [note]).getD j dummyNote = _
  exact List.getD_append _ _ _ _ hj

theorem noteAt_frontS4_new (s : Store) (note : NoteBox) (level hk : Nat) :
    noteAt (frontS4 s note level hk) s.notes.length = note := by
  show (s.notes ++ [note]).getD s.notes.length dummyNote = _
  rw [List.getD_append_right _ _ _ _ (le_refl _)]
  simp

theorem insert_spec_front (s : Store) (l : NoteSkipList) (ks : List Nat)
    (note : NoteBox) (level : Nat)
    (hlinked : linked s l.head_key ks) (hinv : Inv s ks)
    (hse : note.start_beat ≤ note.end_beat)
    (hdisj : ∀ i, i < ks.length →
      endAt s (gk ks i) < note.start_beat ∨ note.end_beat < startAt s (gk ks i))
    (hlen : 0 < ks.length)
    (hcond : note.start_beat < endAt (bump s note) (gk ks 0)) :
    linked (insert s l note level).1 (insert s l note level).2.head_key
      (s.nodes.length :: ks) ∧
    Inv (insert s l note level).1 (s.nodes.length :: ks) ∧
    (∀ i, i < ks.length →
      valAt (insert s l note level).1 (gk ks i) = valAt s (gk ks i)) ∧
    valAt (insert s l note level).1 s.nodes.length = note ∧
    (insert s l note level).1.nodes.length = s.nodes.length + 1 := by
  have hkb : gk ks 0 < s.nodes.length := hinv.bounded 0 hlen
  have hkv : (nodeAt s (gk ks 0)).val_slot_key < s.notes.length :=
    hinv.valBounded 0 hlen
  have hhead : l.head_key = some (gk ks 0) := by
    have := linked_head hlinked
    rwa [if_neg (by omega)] at this
  have hcond' : note.start_beat < endAt s (gk ks 0) := by
    rwa [endAt_bump_lt s note _ hkb hkv] at hcond
  have heq := insert_front_eq s l note level (gk ks 0) hhead hcond
  rw [heq]
  set F := frontS4 s note level (gk ks 0) with hF
  set nk := s.nodes.length with hnk
  have hvalkey : ∀ i, i < ks.length →
      (nodeAt F (gk ks i)).val_slot_key = (nodeAt s (gk ks i)).val_slot_key := by
    intro i hi
    by_cases hqh : gk ks i = gk ks 0
    · rw [hqh, hF, frontS4_hk s note level _ hkb]
    · rw [hF, frontS4_other s note level _ _ hkb hqh
        (by have := hinv.bounded i hi; omega) (hinv.bounded i hi)]
  have hval4 : ∀ i, i < ks.length →
      valAt F (gk ks i) = valAt s (gk ks i) := by
    intro i hi
    unfold valAt
    rw [hvalkey i hi, hF, noteAt_frontS4_lt]
    exact hinv.valBounded i hi
  have hvalnew : valAt F nk = note := by
    unfold valAt
    rw [hF, hnk, frontS4_nk s note level _ hkb]
    exact noteAt_frontS4_new s note level (gk ks 0)
  have hlinknk : ∀ lvl, linkAt F nk lvl =
      if lvl ≤ level then some (gk ks 0) else linkAt s (gk ks 0) lvl := by
    intro lvl
    unfold linkAt
    rw [hF, hnk, frontS4_nk s note level _ hkb]
  have hlinkhk : ∀ lvl, linkAt F (gk ks 0) lvl =
      if level + 1 ≤ lvl ∧ lvl < NOTE_SKIP_LIST_LEVELS then none
      else linkAt s (gk ks 0) lvl := by
    intro lvl
    unfold linkAt
    rw [hF, frontS4_hk s note level _ hkb]
  have hlinkother : ∀ i, i < ks.length → gk ks i ≠ gk ks 0 →
      ∀ lvl, linkAt F (gk ks i) lvl = linkAt s (gk ks i) lvl := by
    intro i hi hne lvl
    unfold linkAt
    rw [hF, frontS4_other s note level _ _ hkb hne
      (by have := hinv.bounded i hi; omega) (hinv.bounded i hi)]
  have hlinkold : ∀ i, i < ks.length → ∀ lvl tgt,
      linkAt F (gk ks i) lvl = some tgt → linkAt s (gk ks i) lvl = some tgt := by
    intro i hi lvl tgt hl
    by_cases hqh : gk ks i = gk ks 0
    · rw [hqh] at hl ⊢
      rw [hlinkhk lvl] at hl
      by_cases hc : level + 1 ≤ lvl ∧ lvl < NOTE_SKIP_LIST_LEVELS
      · rw [if_pos hc] at hl; exact absurd hl (by simp)
      · rwa [if_neg hc] at hl
    · rwa [hlinkother i hi hqh lvl] at hl
  have hFlen : F.nodes.length = s.nodes.length + 1 := frontS4_len s note level _
  have hend0 : note.end_beat < startAt s (gk ks 0) := by
    rcases hdisj 0 hlen with h | h
    · exact absurd (lt_trans h hcond') (lt_irrefl _)
    · exact h
  have hendall : ∀ j, j < ks.length → note.end_beat < startAt s (gk ks j) := by
    intro j hj
    cases j with
    | zero => exact hend0
    | succ j =>
      calc note.end_beat < startAt s (gk ks 0) := hend0
        _ ≤ endAt s (gk ks 0) := hinv.wf 0 hlen
        _ < startAt s (gk ks (j + 1)) := hinv.ordered 0 (j + 1) (by omega) hj
  refine ⟨?_, ?_, hval4, hvalnew, hFlen⟩
  · refine ⟨rfl, ?_⟩
    show linked F (linkAt F nk 0) ks
    rw [hlinknk 0, if_pos (Nat.zero_le level)]
    have hs : linked s (some (gk ks 0)) ks := by rw [← hhead]; exact hlinked
    refine linked_congr ?_ hs
    intro k hk
    obtain ⟨i, hi, rfl⟩ := mem_pos hk
    by_cases hqh : gk ks i = gk ks 0
    · rw [hqh, hlinkhk 0, if_neg (by omega)]
    · exact hlinkother i hi hqh 0
  · refine ⟨?_, ?_, ?_, ?_, ?_⟩
    · intro i hi
      cases i with
      | zero => rw [gk_cons_zero, hFlen]; omega
      | succ i =>
        rw [gk_cons_succ, hFlen]
        have := hinv.bounded i (by simpa using hi)
        omega
    · intro i hi
      have hFnotes : F.notes.length = s.notes.length + 1 := by
        rw [hF, frontS4_notes]; simp
      cases i with
      | zero =>
        rw [gk_cons_zero, hF, hnk, frontS4_nk s note level _ hkb, hFnotes]
        show s.notes.length < s.notes.length + 1
        omega
      | succ i =>
        rw [gk_cons_succ, hvalkey i (by simpa using hi), hFnotes]
        have := hinv.valBounded i (by simpa using hi)
        omega
    · intro i hi
      cases i with
      | zero =>
        show startAt F nk ≤ endAt F nk
        unfold startAt endAt
        rw [hvalnew]
        exact hse
      | succ i =>
        rw [gk_cons_succ]
        show startAt F (gk ks i) ≤ endAt F (gk ks i)
        unfold startAt endAt
        rw [hval4 i (by simpa using hi)]
        exact hinv.wf i (by simpa using hi)
    · intro i j hij hj
      cases i with
      | zero =>
        cases j with
        | zero => omega
        | succ j =>
          rw [gk_cons_zero, gk_cons_succ]
          show endAt F nk < startAt F (gk ks j)
          unfold startAt endAt
          rw [hvalnew, hval4 j (by simpa using hj)]
          exact hendall j (by simpa using hj)
      | succ i =>
        cases j with
        | zero => omega
        | succ j =>
          rw [gk_cons_succ, gk_cons_succ]
          show endAt F (gk ks i) < startAt F (gk ks j)
          unfold startAt endAt
          rw [hval4 i (by have hj2 := lt_trans hij hj; simpa using hj2),
            hval4 j (by simpa using hj)]
          exact hinv.ordered i j (by omega) (by simpa using hj)
    · intro i hi lvl tgt hl
      cases i with
      | zero =>
        rw [gk_cons_zero] at hl
        rw [hlinknk lvl] at hl
        by_cases hc : lvl ≤ level
        · rw [if_pos hc] at hl
          refine ⟨1, by omega, by simpa using hlen, ?_⟩
          rw [gk_cons_succ]
          simpa using hl
        · rw [if_neg hc] at hl
          obtain ⟨j, hij, hjlen, rfl⟩ := hinv.linksFwd 0 hlen lvl tgt hl
          exact ⟨j + 1, by omega, by simpa using hjlen, rfl⟩
      | succ i =>
        rw [gk_cons_succ] at hl
        have hi' : i < ks.length := by simpa using hi
        have hl' := hlinkold i hi' lvl tgt hl
        obtain ⟨j, hij, hjlen, rfl⟩ := hinv.linksFwd i hi' lvl tgt hl'
        exact ⟨j + 1, by omega, by simpa using hjlen, rfl⟩

theorem insert_splice_eq (s : Store) (l : NoteSkipList) (note : NoteBox)
    (level hk : Nat) (hhead : l.head_key = some hk)
    (hcond : ¬ note.start_beat < endAt (bump s note) hk) :
    insert s l note level =
      (spliceUpTo (bump s note) s.nodes.length
        (search (bump s note) (searchFuel (bump s note)) hk note.start_beat
          (fun _ => hk)) level, l) := by
  unfold insert
  rw [hhead]
  simp only [if_neg hcond]

theorem insert_spec_splice (s : Store) (l : NoteSkipList) (ks : List Nat)
    (note : NoteBox) (level : Nat)
    (hlinked : linked s l.head_key ks) (hinv : Inv s ks)
    (hlev : level < NOTE_SKIP_LIST_LEVELS)
    (hse : note.start_beat ≤ note.end_beat)
    (hdisj : ∀ i, i < ks.length →
      endAt s (gk ks i) < note.start_beat ∨ note.end_beat < startAt s (gk ks i))
    (hlen : 0 < ks.length)
    (hcond : ¬ note.start_beat < endAt (bump s note) (gk ks 0)) :
    ∃ n, n ≤ ks.length ∧
      linked (insert s l note level).1 (insert s l note level).2.head_key
        (ks.take n ++ s.nodes.length :: ks.drop n) ∧
      Inv (insert s l note level).1 (ks.take n ++ s.nodes.length :: ks.drop n) ∧
      (∀ i, i < ks.length →
        valAt (insert s l note level).1 (gk ks i) = valAt s (gk ks i)) ∧
      valAt (insert s l note level).1 s.nodes.length = note ∧
      (insert s l note level).1.nodes.length = s.nodes.length + 1 := by
  have hkb : gk ks 0 < s.nodes.length := hinv.bounded 0 hlen
  have hkv : (nodeAt s (gk ks 0)).val_slot_key < s.notes.length :=
    hinv.valBounded 0 hlen
  have hhead : l.head_key = some (gk ks 0) := by
    have := linked_head hlinked
    rwa [if_neg (by omega)] at this
  have hlinked0 : linked s (some (gk ks 0)) ks := by rw [← hhead]; exact hlinked
  have hlinked2 : linked (bump s note) (some (gk ks 0)) ks :=
    linked_bump note hinv hlinked0
  have hinv2 : Inv (bump s note) ks := Inv_bump note hinv
  have hval2 : ∀ i, i < ks.length →
      valAt (bump s note) (gk ks i) = valAt s (gk ks i) := fun i hi =>
    valAt_bump_lt s note _ (hinv.bounded i hi) (hinv.valBounded i hi)
  have hend2 : ∀ i, i < ks.length →
      endAt (bump s note) (gk ks i) = endAt s (gk ks i) := by
    intro i hi; unfold endAt; rw [hval2 i hi]
  have hstart2 : ∀ i, i < ks.length →
      startAt (bump s note) (gk ks i) = startAt s (gk ks i) := by
    intro i hi; unfold startAt; rw [hval2 i hi]
  have hend : endAt (bump s note) (gk ks 0) < note.start_beat := by
    rw [hend2 0 hlen]
    rcases hdisj 0 hlen with h | h
    · exact h
    · exfalso
      rw [hend2 0 hlen] at hcond
      push_neg at hcond
      have h1 := hinv.wf 0 hlen
      have h2 := lt_of_lt_of_le h (le_trans h1 (le_trans hcond hse))
      exact absurd h2 (lt_irrefl _)
  have hfuel : NOTE_SKIP_LIST_LEVELS + 6 * ks.length ≤
      searchFuel (bump s note) := by
    have h1 := hinv.length_le
    unfold searchFuel
    rw [bump_nodes_length]
    simp only [NOTE_SKIP_LIST_LEVELS] at *
    omega
  obtain ⟨j₀, hj₀len, hres0, hend0, hnext, hmax, hall⟩ :=
    search_spec (bump s note) ks note.start_beat
      (searchFuel (bump s note)) hlinked2 hinv2 hlen hend hfuel
  have heq := insert_splice_eq s l note level (gk ks 0) hhead hcond
  rw [heq]
  set s2 := bump s note with hs2
  set nk := s.nodes.length with hnk
  set lv := search s2 (searchFuel s2) (gk ks 0) note.start_beat
    (fun _ => gk ks 0) with hlvdef
  set t := note.start_beat with ht
  set n := j₀ + 1 with hn
  have hnle : n ≤ ks.length := hj₀len
  have hlvb : ∀ j, j ≤ level → lv j < s2.nodes.length ∧ lv j ≠ nk := by
    intro j hj
    obtain ⟨jm, _, hjm, hlvj, _, _⟩ :=
      hall j (by simp only [NOTE_SKIP_LIST_LEVELS] at *; omega)
    rw [hlvj]
    have hb := hinv.bounded jm hjm
    constructor
    · rw [hs2, bump_nodes_length]; omega
    · omega
  have hnkb : nk < s2.nodes.length := by rw [hs2, bump_nodes_length]; omega
  obtain ⟨hFnotes, hFlen, hFval, hFnklo, hFnkhi, hFother⟩ :=
    spliceUpTo_spec s2 nk lv level hnkb hlvb
  set sF := spliceUpTo s2 nk lv level with hsF
  have hnoteF : ∀ j, noteAt sF j = noteAt s2 j := by
    intro j
    unfold noteAt
    rw [hFnotes]
  have hvalF : ∀ q, valAt sF q = valAt s2 q := by
    intro q
    unfold valAt
    rw [hFval q, hnoteF]
  have hstartF : ∀ q, startAt sF q = startAt s2 q := by
    intro q; unfold startAt; rw [hvalF]
  have hendF : ∀ q, endAt sF q = endAt s2 q := by
    intro q; unfold endAt; rw [hvalF]
  have hvalnew : valAt sF nk = note := by
    rw [hvalF, hs2, hnk]
    exact valAt_bump_new s note
  have hstartnk : startAt s2 nk = note.start_beat := by
    unfold startAt
    rw [hs2, hnk, valAt_bump_new]
  have hendnk : endAt s2 nk = note.end_beat := by
    unfold endAt
    rw [hs2, hnk, valAt_bump_new]
  have hdist : ∀ i j, i < j → j < ks.length → gk ks i ≠ gk ks j :=
    hinv.distinct
  have hneq : ∀ i, i < ks.length → gk ks i ≠ nk := by
    intro i hi
    have := hinv.bounded i hi
    omega
  have hpre : ∀ i, i ≤ j₀ → endAt s2 (gk ks i) < t := by
    intro i hi
    rcases Nat.eq_or_lt_of_le hi with rfl | hlt
    · exact hend0
    · calc endAt s2 (gk ks i) < startAt s2 (gk ks j₀) :=
        hinv2.ordered i j₀ hlt hj₀len
        _ ≤ endAt s2 (gk ks j₀) := hinv2.wf j₀ hj₀len
        _ < t := hend0
  have hsuffix : ∀ j, j₀ < j → j < ks.length →
      note.end_beat < startAt s2 (gk ks j) := by
    intro j hj hjlen
    rcases hdisj j hjlen with h | h
    · exfalso
      rw [← hend2 j hjlen] at h
      have := hmax j hjlen h
      omega
    · rw [hstart2 j hjlen]
      exact h
  have hgklt : ∀ p, p < n →
      gk (ks.take n ++ nk :: ks.drop n) p = gk ks p := fun p hp =>
    gk_splice_lt ks nk n p hnle hp
  have hgkeq : gk (ks.take n ++ nk :: ks.drop n) n = nk :=
    gk_splice_eq ks nk n hnle
  have hgkgt : ∀ p, n < p →
      gk (ks.take n ++ nk :: ks.drop n) p = gk ks (p - 1) := fun p hp =>
    gk_splice_gt ks nk n p hnle hp
  have hlen' : (ks.take n ++ nk :: ks.drop n).length = ks.length + 1 :=
    splice_length ks nk n hnle
  have hFlen2 : sF.nodes.length = s.nodes.length + 1 := by
    rw [hFlen, hs2, bump_nodes_length]
  have hFnotesLen : sF.notes.length = s.notes.length + 1 := by
    rw [show sF.notes = s2.notes from hFnotes, hs2, bump_notes_length]
  refine ⟨n, hnle, ?_, ?_, ?_, hvalnew, hFlen2⟩
  · -- the new chain is spelled out by the level-0 links
    apply linked_of_pos
    · rw [hlen', if_neg (by omega), hgklt 0 (by omega)]
      exact hhead
    · intro p hp
      rw [hlen'] at hp
      have hplen : p < ks.length := by omega
      rcases Nat.lt_trichotomy p j₀ with hpj | hpj | hpj
      · rw [hgklt p (by omega), hgklt (p + 1) (by omega)]
        rw [hFother _ 0 (hneq p hplen)]
        rw [if_neg (by
          rintro ⟨-, hlv0⟩
          rw [hres0] at hlv0
          exact (hdist p j₀ hpj hj₀len) hlv0.symm)]
        exact linked_link hlinked2 p (by omega)
      · subst hpj
        rw [hgklt p (by omega), show p + 1 = n from rfl, hgkeq]
        rw [hFother _ 0 (hneq p hj₀len)]
        rw [if_pos ⟨Nat.zero_le level, by rw [hres0]⟩]
      · rcases Nat.eq_or_lt_of_le (show n ≤ p by omega) with hpn | hpn
        · subst hpn
          rw [hgkeq, hgkgt (n + 1) (by omega),
            show n + 1 - 1 = n from rfl]
          rw [hFnklo 0 (Nat.zero_le level), hres0]
          exact linked_link hlinked2 j₀ (by omega)
        · rw [hgkgt p hpn, hgkgt (p + 1) (by omega),
            show p + 1 - 1 = p from rfl]
          rw [hFother _ 0 (hneq (p - 1) (by omega))]
          rw [if_neg (by
            rintro ⟨-, hlv0⟩
            rw [hres0] at hlv0
            exact (hdist j₀ (p - 1) (by omega) (by omega)) hlv0)]
          have hll := linked_link hlinked2 (p - 1) (by omega)
          rwa [show p - 1 + 1 = p from by omega] at hll
    · intro hlen0
      rw [hlen', show ks.length + 1 - 1 = ks.length from rfl]
      rcases Nat.eq_or_lt_of_le hnle with hnl | hnl
      · rw [← hnl, hgkeq]
        rw [hFnklo 0 (Nat.zero_le level), hres0]
        have hj : j₀ = ks.length - 1 := by omega
        rw [hj]
        exact linked_last hlinked2 hlen
      · rw [hgkgt ks.length hnl]
        rw [hFother _ 0 (hneq (ks.length - 1) (by omega))]
        rw [if_neg (by
          rintro ⟨-, hlv0⟩
          rw [hres0] at hlv0
          exact (hdist j₀ (ks.length - 1) (by omega) (by omega)) hlv0)]
        exact linked_last hlinked2 hlen
  · -- the invariant for the new chain
    have hpos : ∀ p, p < ks.length + 1 →
        (p < n ∧ gk (ks.take n ++ nk :: ks.drop n) p = gk ks p ∧ p < ks.length) ∨
        (p = n ∧ gk (ks.take n ++ nk :: ks.drop n) p = nk) ∨
        (n < p ∧ gk (ks.take n ++ nk :: ks.drop n) p = gk ks (p - 1) ∧
          p - 1 < ks.length) := by
      intro p hp
      rcases Nat.lt_trichotomy p n with h | h | h
      · exact Or.inl ⟨h, hgklt p h, by omega⟩
      · exact Or.inr (Or.inl ⟨h, h ▸ hgkeq⟩)
      · exact Or.inr (Or.inr ⟨h, hgkgt p h, by omega⟩)
    refine ⟨?_, ?_, ?_, ?_, ?_⟩
    · intro p hp
      rw [hlen'] at hp
      rcases hpos p hp with ⟨_, hg, hpl⟩ | ⟨_, hg⟩ | ⟨_, hg, hpl⟩
      · rw [hg, hFlen2]
        have := hinv.bounded p hpl
        omega
      · rw [hg, hFlen2]
        omega
      · rw [hg, hFlen2]
        have := hinv.bounded (p - 1) hpl
        omega
    · intro p hp
      rw [hlen'] at hp
      have hvk : ∀ q, (nodeAt sF q).val_slot_key = (nodeAt s2 q).val_slot_key :=
        hFval
      rcases hpos p hp with ⟨_, hg, hpl⟩ | ⟨_, hg⟩ | ⟨_, hg, hpl⟩
      · rw [hg, hvk, hFnotesLen, hs2,
          nodeAt_bump_lt s note _ (hinv.bounded p hpl)]
        have := hinv.valBounded p hpl
        omega
      · rw [hg, hvk, hFnotesLen, hs2, hnk, nodeAt_bump_new]
        show s.notes.length < s.notes.length + 1
        omega
      · rw [hg, hvk, hFnotesLen, hs2,
          nodeAt_bump_lt s note _ (hinv.bounded (p - 1) hpl)]
        have := hinv.valBounded (p - 1) hpl
        omega
    · intro p hp
      rw [hlen'] at hp
      rcases hpos p hp with ⟨_, hg, hpl⟩ | ⟨_, hg⟩ | ⟨_, hg, hpl⟩
      · rw [hg]
        show startAt sF (gk ks p) ≤ endAt sF (gk ks p)
        rw [hstartF, hendF]
        exact hinv2.wf p hpl
      · rw [hg]
        show startAt sF nk ≤ endAt sF nk
        unfold startAt endAt
        rw [hvalnew]
        exact hse
      · rw [hg]
        show startAt sF (gk ks (p - 1)) ≤ endAt sF (gk ks (p - 1))
        rw [hstartF, hendF]
        exact hinv2.wf (p - 1) hpl
    · intro p q hpq hq
      rw [hlen'] at hq
      have hp : p < ks.length + 1 := by omega
      rcases hpos p hp with ⟨hp1, hgp, hpl⟩ | ⟨hp1, hgp⟩ | ⟨hp1, hgp, hpl⟩ <;>
        rcases hpos q hq with ⟨hq1, hgq, hql⟩ | ⟨hq1, hgq⟩ | ⟨hq1, hgq, hql⟩
      · rw [hgp, hgq]
        show endAt sF (gk ks p) < startAt sF (gk ks q)
        rw [hendF, hstartF]
        exact hinv2.ordered p q hpq hql
      · rw [hgp, hgq]
        show endAt sF (gk ks p) < startAt sF nk
        rw [hendF, hstartF, hstartnk]
        exact hpre p (by omega)
      · rw [hgp, hgq]
        show endAt sF (gk ks p) < startAt sF (gk ks (q - 1))
        rw [hendF, hstartF]
        exact hinv2.ordered p (q - 1) (by omega) hql
      · omega
      · omega
      · rw [hgp, hgq]
        show endAt sF nk < startAt sF (gk ks (q - 1))
        rw [hendF, hstartF, hendnk]
        exact hsuffix (q - 1) (by omega) hql
      · omega
      · omega
      · rw [hgp, hgq]
        show endAt sF (gk ks (p - 1)) < startAt sF (gk ks (q - 1))
        rw [hendF, hstartF]
        exact hinv2.ordered (p - 1) (q - 1) (by omega) hql
    · intro p hp lvl tgt hl
      rw [hlen'] at hp
      rcases hpos p hp with ⟨hp1, hgp, hpl⟩ | ⟨hp1, hgp⟩ | ⟨hp1, hgp, hpl⟩
      · rw [hgp, hFother _ lvl (hneq p hpl)] at hl
        by_cases hc : lvl ≤ level ∧ lv lvl = gk ks p
        · rw [if_pos hc] at hl
          obtain rfl : nk = tgt := by simpa using hl
          refine ⟨n, hp1, by rw [hlen']; omega, hgkeq⟩
        · rw [if_neg hc] at hl
          obtain ⟨j, hpj, hjlen, rfl⟩ := hinv2.linksFwd p hpl lvl _ hl
          rcases le_or_lt j j₀ with hjj | hjj
          · exact ⟨j, by omega, by rw [hlen']; omega, hgklt j (by omega)⟩
          · exact ⟨j + 1, by omega, by rw [hlen']; omega, hgkgt (j + 1) (by omega)⟩
      · subst hp1
        rw [hgp] at hl
        by_cases hc : lvl ≤ level
        · rw [hFnklo lvl hc] at hl
          obtain ⟨jm, hjmj₀, hjmlen, hlveq, hjmend, hgood⟩ :=
            hall lvl (by simp only [NOTE_SKIP_LIST_LEVELS] at *; omega)
          rw [hlveq] at hl
          rcases hgood with hnone | ⟨tgt', heq', hge⟩
          · rw [hnone] at hl
            exact absurd hl (by simp)
          · rw [heq'] at hl
            obtain rfl : tgt' = tgt := by simpa using hl
            obtain ⟨jj, hjmjj, hjjlen, rfl⟩ :=
              hinv2.linksFwd jm hjmlen lvl _ heq'
            have hjjgt : j₀ < jj := by
              by_contra hle
              push_neg at hle
              exact absurd (lt_of_le_of_lt hge (hpre jj hle)) (lt_irrefl _)
            exact ⟨jj + 1, by omega, by rw [hlen']; omega,
              hgkgt (jj + 1) (by omega)⟩
        · rw [hFnkhi lvl (by omega)] at hl
          rw [hs2, hnk, linkAt_bump_new] at hl
          exact absurd hl (by simp)
      · rw [hgp, hFother _ lvl (hneq (p - 1) hpl)] at hl
        by_cases hc : lvl ≤ level ∧ lv lvl = gk ks (p - 1)
        · exfalso
          obtain ⟨jm, hjmj₀, hjmlen, hlveq, _, _⟩ :=
            hall lvl (by simp only [NOTE_SKIP_LIST_LEVELS] at *; omega)
          rw [hlveq] at hc
          exact (hdist jm (p - 1) (by omega) hpl) hc.2
        · rw [if_neg hc] at hl
          obtain ⟨j, hpj, hjlen, rfl⟩ := hinv2.linksFwd (p - 1) hpl lvl _ hl
          exact ⟨j + 1, by omega, by rw [hlen']; omega, hgkgt (j + 1) (by omega)⟩
  · intro i hi
    rw [hvalF]
    exact hval2 i hi

theorem Inv_nil (s : Store) : Inv s [] := by
  refine ⟨?_, ?_, ?_, ?_, ?_⟩
  · intro i hi; simp at hi
  · intro i hi; simp at hi
  · intro i hi; simp at hi
  · intro i j hij hj; simp at hj
  · intro i hi; simp at hi

theorem insert_spec (s : Store) (l : NoteSkipList) (ks : List Nat)
    (note : NoteBox) (level : Nat)
    (hlinked : linked s l.head_key ks) (hinv : Inv s ks)
    (hlev : level < NOTE_SKIP_LIST_LEVELS)
    (hse : note.start_beat ≤ note.end_beat)
    (hdisj : ∀ i, i < ks.length →
      endAt s (gk ks i) < note.start_beat ∨ note.end_beat < startAt s (gk ks i)) :
    ∃ n, n ≤ ks.length ∧
      linked (insert s l note level).1 (insert s l note level).2.head_key
        (ks.take n ++ s.nodes.length :: ks.drop n) ∧
      Inv (insert s l note level).1 (ks.take n ++ s.nodes.length :: ks.drop n) ∧
      (∀ i, i < ks.length →
        valAt (insert s l note level).1 (gk ks i) = valAt s (gk ks i)) ∧
      valAt (insert s l note level).1 s.nodes.length = note ∧
      (insert s l note level).1.nodes.length = s.nodes.length + 1 := by
  cases hhead : l.head_key with
  | none =>
    obtain rfl : ks = [] := by
      cases ks with
      | nil => rfl
      | cons k ks =>
        rw [hhead] at hlinked
        exact absurd hlinked.1 (by simp)
    refine ⟨0, by omega, ?_⟩
    rw [insert_spec_empty s l note level hhead]
    simp only [List.take_nil, List.drop_nil, List.nil_append]
    refine ⟨linked_singleton_new s note, Inv_singleton_new s note hse,
      by intro i hi; simp at hi, valAt_bump_new s note, bump_nodes_length s note⟩
  | some hk =>
    have hlen : 0 < ks.length := by
      cases ks with
      | nil =>
        rw [hhead] at hlinked
        exact absurd hlinked (by simp [linked])
      | cons k ks => simp
    by_cases hcond : note.start_beat < endAt (bump s note) (gk ks 0)
    · refine ⟨0, by omega, ?_⟩
      rw [List.take_zero, List.drop_zero, List.nil_append]
      obtain ⟨h1, h2, h3, h4, h5⟩ :=
        insert_spec_front s l ks note level hlinked hinv hse hdisj hlen hcond
      exact ⟨h1, h2, h3, h4, h5⟩
    · exact insert_spec_splice s l ks note level hlinked hinv hlev hse hdisj
        hlen hcond

/-- The disjointness relation the non-overlap caller obligation induces on
intervals: one ends strictly before the other starts. -/
def strictDisj (a b : NoteBox) : Prop :=
  a.end_beat < b.start_beat ∨ b.end_beat < a.start_beat

instance : DecidableRel strictDisj := fun a b => by
  unfold strictDisj; infer_instance

theorem insertAll_spec :
    ∀ (seq : List (NoteBox × Nat)) (s : Store) (l : NoteSkipList)
      (ks : List Nat),
      linked s l.head_key ks → Inv s ks →
      (∀ p, p ∈ seq → p.2 < NOTE_SKIP_LIST_LEVELS) →
      (∀ p, p ∈ seq → p.1.start_beat ≤ p.1.end_beat) →
      seq.Pairwise (fun a b => strictDisj a.1 b.1) →
      (∀ p, p ∈ seq → ∀ i, i < ks.length → strictDisj (valAt s (gk ks i)) p.1) →
      ∃ ks', linked (insertAll (s, l) seq).1 (insertAll (s, l) seq).2.head_key ks' ∧
        Inv (insertAll (s, l) seq).1 ks' ∧
        List.Perm (ks'.map (valAt (insertAll (s, l) seq).1))
          (ks.map (valAt s) ++ seq.map Prod.fst) := by
  intro seq
  induction seq with
  | nil =>
    intro s l ks hlinked hinv _ _ _ _
    refine ⟨ks, hlinked, hinv, ?_⟩
    rw [show insertAll (s, l) [] = (s, l) from rfl]
    simp
  | cons hd rest ih =>
    intro s l ks hlinked hinv hlev hwf hpair hchain
    obtain ⟨note, level⟩ := hd
    have hstep := insert_spec s l ks note level hlinked hinv
      (hlev (note, level) (List.mem_cons_self _ _))
      (hwf (note, level) (List.mem_cons_self _ _))
      (by
        intro i hi
        have := hchain (note, level) (List.mem_cons_self _ _) i hi
        rcases this with h | h
        · exact Or.inl h
        · exact Or.inr h)
    obtain ⟨n, hnle, hlinked', hinv', hvals, hvalnew, hslen⟩ := hstep
    set s' := (insert s l note level).1 with hs'
    set l' := (insert s l note level).2 with hl'
    set nk := s.nodes.length with hnk
    set ks' := ks.take n ++ nk :: ks.drop n with hks'
    have hlen' : ks'.length = ks.length + 1 := splice_length ks nk n hnle
    have hgklt : ∀ p, p < n → gk ks' p = gk ks p := fun p hp =>
      gk_splice_lt ks nk n p hnle hp
    have hgkeq : gk ks' n = nk := gk_splice_eq ks nk n hnle
    have hgkgt : ∀ p, n < p → gk ks' p = gk ks (p - 1) := fun p hp =>
      gk_splice_gt ks nk n p hnle hp
    -- positional description of the new chain's stored intervals
    have hvals' : ∀ p, p < ks'.length →
        (p < n → valAt s' (gk ks' p) = valAt s (gk ks p)) ∧
        (p = n → valAt s' (gk ks' p) = note) ∧
        (n < p → valAt s' (gk ks' p) = valAt s (gk ks (p - 1))) := by
      intro p hp
      rw [hlen'] at hp
      refine ⟨?_, ?_, ?_⟩
      · intro h
        rw [hgklt p h]
        exact hvals p (by omega)
      · intro h
        rw [h, hgkeq]
        exact hvalnew
      · intro h
        rw [hgkgt p h]
        exact hvals (p - 1) (by omega)
    have hstep2 := ih s' l' ks' hlinked' hinv'
      (fun p hp => hlev p (List.mem_cons_of_mem _ hp))
      (fun p hp => hwf p (List.mem_cons_of_mem _ hp))
      (List.Pairwise.of_cons hpair)
      (by
        intro p hp i hi
        rw [hlen'] at hi
        rcases Nat.lt_trichotomy i n with h | h | h
        · rw [(hvals' i (by rw [hlen']; omega)).1 h]
          exact hchain p (List.mem_cons_of_mem _ hp) i (by omega)
        · rw [(hvals' i (by rw [hlen']; omega)).2.1 h]
          have := List.rel_of_pairwise_cons hpair hp
          exact this
        · rw [(hvals' i (by rw [hlen']; omega)).2.2 h]
          exact hchain p (List.mem_cons_of_mem _ hp) (i - 1) (by omega))
    obtain ⟨ks'', hl'', hi'', hperm⟩ := hstep2
    refine ⟨ks'', hl'', hi'', ?_⟩
    refine hperm.trans ?_
    -- the new chain's intervals are the old ones with `note` spliced in
    have htake : (ks.take n).map (valAt s') = (ks.take n).map (valAt s) := by
      apply List.map_congr_left
      intro k hk
      obtain ⟨i, hi, rfl⟩ := mem_pos (List.mem_of_mem_take hk)
      exact hvals i hi
    have hdrop : (ks.drop n).map (valAt s') = (ks.drop n).map (valAt s) := by
      apply List.map_congr_left
      intro k hk
      obtain ⟨i, hi, rfl⟩ := mem_pos (List.mem_of_mem_drop hk)
      exact hvals i hi
    have hmapeq : ks'.map (valAt s') =
        (ks.take n).map (valAt s) ++ note :: (ks.drop n).map (valAt s) := by
      rw [hks', List.map_append, List.map_cons, htake, hdrop, hvalnew]
    rw [hmapeq]
    have e1 : ((ks.take n).map (valAt s) ++ note :: (ks.drop n).map (valAt s)) ++
          rest.map Prod.fst =
        (ks.take n).map (valAt s) ++ note ::
          ((ks.drop n).map (valAt s) ++ rest.map Prod.fst) := by simp
    rw [e1]
    refine List.Perm.trans List.perm_middle ?_
    have e2 : note :: ((ks.take n).map (valAt s) ++
          ((ks.drop n).map (valAt s) ++ rest.map Prod.fst)) =
        note :: (ks.map (valAt s) ++ rest.map Prod.fst) := by
      rw [← List.append_assoc, ← List.map_append, List.take_append_drop]
    rw [e2]
    have e3 : ((note, level) :: rest).map Prod.fst = note :: rest.map Prod.fst :=
      rfl
    rw [e3]
    exact List.perm_middle.symm

theorem Inv.sorted {s : Store} {ks : List Nat} (h : Inv s ks) :
    List.Sorted noteLe (ks.map (valAt s)) := by
  rw [List.Sorted, List.pairwise_iff_getElem]
  intro i j hi hj hij
  rw [List.length_map] at hi hj
  rw [List.getElem_map, List.getElem_map]
  left
  have h1 := h.ordered i j hij hj
  have h2 := h.wf i (lt_trans hij hj)
  rw [gk_eq_getElem ks i (lt_trans hij hj), gk_eq_getElem ks j hj] at h1
  rw [gk_eq_getElem ks i (lt_trans hij hj)] at h2
  exact lt_of_le_of_lt h2 h1

/-- C1 (amended): inserting any sequence of pairwise strictly disjoint,
well-formed intervals (with the generated levels in range) into an initially
empty skip list makes forward iteration yield exactly the inserted multiset
in nondecreasing `(start, end)` order, i.e. a reference sort of the inserted
intervals.  (The unamended claim, over arbitrary sequences, fails for
overlapping intervals — see the counterexample.) -/
theorem insert_iter_sorted (seq : List (NoteBox × Nat))
    (hlev : ∀ p, p ∈ seq → p.2 < NOTE_SKIP_LIST_LEVELS)
    (hwf : ∀ p, p ∈ seq → p.1.start_beat ≤ p.1.end_beat)
    (hdisj : seq.Pairwise (fun a b => strictDisj a.1 b.1)) :
    toList (insertAll (initStore, emptyList) seq).1
      (insertAll (initStore, emptyList) seq).2 =
    List.insertionSort noteLe (seq.map Prod.fst) := by
  obtain ⟨ks', hlinked, hinv, hperm⟩ :=
    insertAll_spec seq initStore emptyList [] rfl (Inv_nil initStore)
      hlev hwf hdisj (by intro p hp i hi; simp at hi)
  unfold toList
  rw [iterFrom_linked hlinked _ hinv.length_le]
  have hperm' : List.Perm (ks'.map
      (valAt (insertAll (initStore, emptyList) seq).1)) (seq.map Prod.fst) := by
    simpa using hperm
  exact List.eq_of_perm_of_sorted
    (hperm'.trans (List.perm_insertionSort noteLe _).symm)
    hinv.sorted (List.sorted_insertionSort noteLe _)

/-- Witness for C1 at the spec's insertion-ordering scenario: inserting
`(1,2)`, `(5,10)`, `(3,4)` (with in-range generated levels) yields the
iteration `(1,2),(3,4),(5,10)`. -/
theorem insert_iter_sorted_witness :
    toList (insertAll (initStore, emptyList)
        [(⟨1, 2⟩, 0), (⟨5, 10⟩, 1), (⟨3, 4⟩, 0)]).1
      (insertAll (initStore, emptyList)
        [(⟨1, 2⟩, 0), (⟨5, 10⟩, 1), (⟨3, 4⟩, 0)]).2 =
      List.insertionSort noteLe
        (([(⟨1, 2⟩, 0), (⟨5, 10⟩, 1), (⟨3, 4⟩, 0)] :
          List (NoteBox × Nat)).map Prod.fst) ∧
    List.insertionSort noteLe
        (([(⟨1, 2⟩, 0), (⟨5, 10⟩, 1), (⟨3, 4⟩, 0)] :
          List (NoteBox × Nat)).map Prod.fst) =
      [⟨1, 2⟩, ⟨3, 4⟩, ⟨5, 10⟩] :=
  ⟨insert_iter_sorted _ (by decide) (by decide) (by decide), by decide⟩

/-- Counterexample to C1 as stated: for the overlapping insertion sequence
`(0,10)` then `(5,6)` (both with generated level 0), iteration yields
`(5,6),(0,10)`, not the reference sort `(0,10),(5,6)`. -/
theorem insert_iter_sorted_counterexample :
    toList (insertAll (initStore, emptyList)
        [(⟨0, 10⟩, 0), (⟨5, 6⟩, 0)]).1
      (insertAll (initStore, emptyList) [(⟨0, 10⟩, 0), (⟨5, 6⟩, 0)]).2 ≠
    List.insertionSort noteLe
      (([(⟨0, 10⟩, 0), (⟨5, 6⟩, 0)] : List (NoteBox × Nat)).map Prod.fst) := by
  decide

/-- C5 (amended): in every skip list reachable from the empty list by
inserting pairwise strictly disjoint, well-formed intervals with in-range
generated levels, the nodes form a level-0 chain (`linked`), every present
link at every level refers to a node strictly after it in that chain
(reachable by following `links[0]` zero or more times), and the level-0
order is the `(start, end)` sorted order.  (The unamended claim, over
arbitrary insert sequences, fails: with overlapping inserts the level-0
chain is not in sorted order — see the counterexample.) -/
theorem insert_level_consistency (seq : List (NoteBox × Nat))
    (hlev : ∀ p, p ∈ seq → p.2 < NOTE_SKIP_LIST_LEVELS)
    (hwf : ∀ p, p ∈ seq → p.1.start_beat ≤ p.1.end_beat)
    (hdisj : seq.Pairwise (fun a b => strictDisj a.1 b.1)) :
    ∃ ks, linked (insertAll (initStore, emptyList) seq).1
        (insertAll (initStore, emptyList) seq).2.head_key ks ∧
      (∀ i, i < ks.length → ∀ lvl tgt,
        linkAt (insertAll (initStore, emptyList) seq).1 (gk ks i) lvl =
          some tgt →
        ∃ j, i < j ∧ j < ks.length ∧ gk ks j = tgt) ∧
      List.Sorted noteLe
        (ks.map (valAt (insertAll (initStore, emptyList) seq).1)) := by
  obtain ⟨ks', hlinked, hinv, _⟩ :=
    insertAll_spec seq initStore emptyList [] rfl (Inv_nil initStore)
      hlev hwf hdisj (by intro p hp i hi; simp at hi)
  exact ⟨ks', hlinked, hinv.linksFwd, hinv.sorted⟩

/-- Witness for C5 at a concrete disjoint insertion sequence. -/
theorem insert_level_consistency_witness :
    ∃ ks, linked (insertAll (initStore, emptyList)
        [(⟨1, 2⟩, 2), (⟨5, 10⟩, 1), (⟨3, 4⟩, 0)]).1
        (insertAll (initStore, emptyList)
          [(⟨1, 2⟩, 2), (⟨5, 10⟩, 1), (⟨3, 4⟩, 0)]).2.head_key ks ∧
      (∀ i, i < ks.length → ∀ lvl tgt,
        linkAt (insertAll (initStore, emptyList)
          [(⟨1, 2⟩, 2), (⟨5, 10⟩, 1), (⟨3, 4⟩, 0)]).1 (gk ks i) lvl =
          some tgt →
        ∃ j, i < j ∧ j < ks.length ∧ gk ks j = tgt) ∧
      List.Sorted noteLe (ks.map (valAt (insertAll (initStore, emptyList)
        [(⟨1, 2⟩, 2), (⟨5, 10⟩, 1), (⟨3, 4⟩, 0)]).1)) :=
  insert_level_consistency _ (by decide) (by decide) (by decide)

/-- Counterexample to C5 as stated: after the (overlapping) reachable insert
sequence `(0,10)` then `(5,6)`, the head node stores `(5,6)` and its
`links[0]` points at the node storing `(0,10)`, which precedes it in the
`(start, end)` order — so `links[0]` is not the "next in sorted order"
pointer on arbitrary reachable lists. -/
theorem insert_level_consistency_counterexample :
    (insertAll (initStore, emptyList)
        [(⟨0, 10⟩, 0), (⟨5, 6⟩, 0)]).2.head_key = some 2 ∧
    linkAt (insertAll (initStore, emptyList)
        [(⟨0, 10⟩, 0), (⟨5, 6⟩, 0)]).1 2 0 = some 1 ∧
    valAt (insertAll (initStore, emptyList)
        [(⟨0, 10⟩, 0), (⟨5, 6⟩, 0)]).1 2 = ⟨5, 6⟩ ∧
    valAt (insertAll (initStore, emptyList)
        [(⟨0, 10⟩, 0), (⟨5, 6⟩, 0)]).1 1 = ⟨0, 10⟩ ∧
    ¬ noteLe (valAt (insertAll (initStore, emptyList)
        [(⟨0, 10⟩, 0), (⟨5, 6⟩, 0)]).1 2)
      (valAt (insertAll (initStore, emptyList)
        [(⟨0, 10⟩, 0), (⟨5, 6⟩, 0)]).1 1) := by
  decide

/-- C4: on a non-empty list, inserting an interval whose start lies before
the current head's end (with generated level `k`) makes the new node the
head: its links at levels `0..=k` all point at the old head, its links at
levels `k+1..L` are copies of the old head's links there, the old head's
links above `k` are cleared, and every other node (and every stored
interval) is unchanged. -/
theorem insert_head_replacement (s : Store) (l : NoteSkipList) (note : NoteBox)
    (level hk : Nat)
    (hhead : l.head_key = some hk)
    (hkb : hk < s.nodes.length)
    (hkv : (nodeAt s hk).val_slot_key < s.notes.length)
    (hcond : note.start_beat < endAt s hk) :
    (insert s l note level).2.head_key = some s.nodes.length ∧
    (∀ i, i ≤ level →
      linkAt (insert s l note level).1 s.nodes.length i = some hk) ∧
    (∀ i, level < i → i < NOTE_SKIP_LIST_LEVELS →
      linkAt (insert s l note level).1 s.nodes.length i = linkAt s hk i) ∧
    (∀ i, level < i → i < NOTE_SKIP_LIST_LEVELS →
      linkAt (insert s l note level).1 hk i = none) ∧
    (∀ i, i ≤ level → linkAt (insert s l note level).1 hk i = linkAt s hk i) ∧
    (∀ q, q < s.nodes.length → q ≠ hk →
      nodeAt (insert s l note level).1 q = nodeAt s q) ∧
    (∀ j, j < s.notes.length →
      noteAt (insert s l note level).1 j = noteAt s j) ∧
    valAt (insert s l note level).1 s.nodes.length = note := by
  have hcond' : note.start_beat < endAt (bump s note) hk := by
    rwa [endAt_bump_lt s note hk hkb hkv]
  have heq := insert_front_eq s l note level hk hhead hcond'
  rw [heq]
  refine ⟨rfl, ?_, ?_, ?_, ?_, ?_, ?_, ?_⟩
  · intro i hi
    show linkAt (frontS4 s note level hk) s.nodes.length i = some hk
    unfold linkAt
    rw [frontS4_nk s note level hk hkb]
    simp [hi]
  · intro i hi _
    show linkAt (frontS4 s note level hk) s.nodes.length i = linkAt s hk i
    unfold linkAt
    rw [frontS4_nk s note level hk hkb]
    simp [Nat.not_le.mpr hi]
  · intro i hi1 hi2
    show linkAt (frontS4 s note level hk) hk i = none
    unfold linkAt
    rw [frontS4_hk s note level hk hkb]
    simp only []
    rw [if_pos ⟨by omega, hi2⟩]
  · intro i hi
    show linkAt (frontS4 s note level hk) hk i = linkAt s hk i
    unfold linkAt
    rw [frontS4_hk s note level hk hkb]
    simp only []
    rw [if_neg (by omega)]
  · intro q hq1 hq2
    show nodeAt (frontS4 s note level hk) q = nodeAt s q
    exact frontS4_other s note level hk q hkb hq2 (by omega) hq1
  · intro j hj
    exact noteAt_frontS4_lt s note level hk j hj
  · show valAt (frontS4 s note level hk) s.nodes.length = note
    unfold valAt
    rw [frontS4_nk s note level hk hkb]
    exact noteAt_frontS4_new s note level hk

/-- Witness for C4: starting from the list holding only `(5,10)`, inserting
`(1,2)` (generated level 0) replaces the head, and iteration yields
`(1,2),(5,10)` — the spec's head-replacement scenario. -/
theorem insert_head_replacement_witness :
    ((insert (insertAll (initStore, emptyList) [(⟨5, 10⟩, 0)]).1
        (insertAll (initStore, emptyList) [(⟨5, 10⟩, 0)]).2
        ⟨1, 2⟩ 0).2.head_key =
      some (insertAll (initStore, emptyList) [(⟨5, 10⟩, 0)]).1.nodes.length ∧
    (∀ i, i ≤ 0 →
      linkAt (insert (insertAll (initStore, emptyList) [(⟨5, 10⟩, 0)]).1
          (insertAll (initStore, emptyList) [(⟨5, 10⟩, 0)]).2 ⟨1, 2⟩ 0).1
        (insertAll (initStore, emptyList) [(⟨5, 10⟩, 0)]).1.nodes.length i =
      some 1) ∧
    (∀ i, 0 < i → i < NOTE_SKIP_LIST_LEVELS →
      linkAt (insert (insertAll (initStore, emptyList) [(⟨5, 10⟩, 0)]).1
          (insertAll (initStore, emptyList) [(⟨5, 10⟩, 0)]).2 ⟨1, 2⟩ 0).1
        (insertAll (initStore, emptyList) [(⟨5, 10⟩, 0)]).1.nodes.length i =
      linkAt (insertAll (initStore, emptyList) [(⟨5, 10⟩, 0)]).1 1 i) ∧
    (∀ i, 0 < i → i < NOTE_SKIP_LIST_LEVELS →
      linkAt (insert (insertAll (initStore, emptyList) [(⟨5, 10⟩, 0)]).1
          (insertAll (initStore, emptyList) [(⟨5, 10⟩, 0)]).2 ⟨1, 2⟩ 0).1 1 i =
      none) ∧
    (∀ i, i ≤ 0 →
      linkAt (insert (insertAll (initStore, emptyList) [(⟨5, 10⟩, 0)]).1
          (insertAll (initStore, emptyList) [(⟨5, 10⟩, 0)]).2 ⟨1, 2⟩ 0).1 1 i =
      linkAt (insertAll (initStore, emptyList) [(⟨5, 10⟩, 0)]).1 1 i) ∧
    (∀ q, q < (insertAll (initStore, emptyList) [(⟨5, 10⟩, 0)]).1.nodes.length →
      q ≠ 1 →
      nodeAt (insert (insertAll (initStore, emptyList) [(⟨5, 10⟩, 0)]).1
          (insertAll (initStore, emptyList) [(⟨5, 10⟩, 0)]).2 ⟨1, 2⟩ 0).1 q =
      nodeAt (insertAll (initStore, emptyList) [(⟨5, 10⟩, 0)]).1 q) ∧
    (∀ j, j < (insertAll (initStore, emptyList) [(⟨5, 10⟩, 0)]).1.notes.length →
      noteAt (insert (insertAll (initStore, emptyList) [(⟨5, 10⟩, 0)]).1
          (insertAll (initStore, emptyList) [(⟨5, 10⟩, 0)]).2 ⟨1, 2⟩ 0).1 j =
      noteAt (insertAll (initStore, emptyList) [(⟨5, 10⟩, 0)]).1 j) ∧
    valAt (insert (insertAll (initStore, emptyList) [(⟨5, 10⟩, 0)]).1
        (insertAll (initStore, emptyList) [(⟨5, 10⟩, 0)]).2 ⟨1, 2⟩ 0).1
      (insertAll (initStore, emptyList) [(⟨5, 10⟩, 0)]).1.nodes.length =
      ⟨1, 2⟩) ∧
    toList (insertAll (initStore, emptyList) [(⟨5, 10⟩, 0), (⟨1, 2⟩, 0)]).1
      (insertAll (initStore, emptyList) [(⟨5, 10⟩, 0), (⟨1, 2⟩, 0)]).2 =
      [⟨1, 2⟩, ⟨5, 10⟩] := by
  refine ⟨insert_head_replacement _ _ _ 0 1 (by decide) (by decide) (by decide)
    (by decide), ?_⟩
  decide

/-! ## Per-level result of `search` (claim C2) -/

/-- `linked` is decidable, so concrete chains can be checked by evaluation. -/
instance instDecidableLinked (s : Store) : (o : Option Nat) → (ks : List Nat) →
    Decidable (linked s o ks)
  | o, [] => inferInstanceAs (Decidable (o = none))
  | o, k :: ks =>
    haveI : Decidable (linked s (linkAt s k 0) ks) :=
      instDecidableLinked s (linkAt s k 0) ks
    inferInstanceAs (Decidable (o = some k ∧ linked s (linkAt s k 0) ks))

/-- A store's level-0 links spell out at most one chain from a given handle. -/
theorem linked_unique {s : Store} :
    ∀ (ks : List Nat) (o : Option Nat) (ks' : List Nat),
      linked s o ks → linked s o ks' → ks = ks' := by
  intro ks
  induction ks with
  | nil =>
    intro o ks' h h'
    cases ks' with
    | nil => rfl
    | cons k' t' =>
      rw [h] at h'
      exact absurd h'.1 (by simp)
  | cons k t ih =>
    intro o ks' h h'
    cases ks' with
    | nil =>
      rw [h'] at h
      exact absurd h.1 (by simp)
    | cons k' t' =>
      obtain ⟨ho, hrest⟩ := h
      obtain ⟨ho', hrest'⟩ := h'
      rw [ho] at ho'
      obtain rfl : k = k' := by simpa using ho'
      rw [ih _ _ hrest hrest']

/-- The level-`lvl` chain reachable from the node `k`: the node itself, then
whatever following its level-`lvl` links visits, one fuel unit per node. -/
def levelChain (s : Store) (lvl : Nat) : Nat → Nat → List Nat
  | 0, _ => []
  | fuel + 1, k =>
    k :: (match linkAt s k lvl with
          | none => []
          | some k2 => levelChain s lvl fuel k2)

/-- C2 (amended): running `search` from the first node of a well-formed chain
whose end is `< t`, with the predecessor array initialized to that node,
fills entry 0 with exactly the last chain node whose end is `< t` (its
level-0 successor, if any, has end `≥ t`: an end equal to the target already
stops the traversal), and fills every entry `m` with a chain node at or
before that position whose end is `< t` and whose level-`m` link is absent
or points at a node with end `≥ t` — a valid splice predecessor for level
`m`.  (The unamended claim — that entry `k` is the last node of the
level-`k` chain reachable from the start whose end is `< t` — is false,
because `search` restarts at the top level after every jump: see the
counterexample.) -/
theorem search_per_level_predecessors (s : Store) (ks : List Nat) (t : ℚ)
    (fuel : Nat)
    (hlinked : linked s (some (gk ks 0)) ks)
    (hinv : Inv s ks)
    (hlen : 0 < ks.length)
    (hend : endAt s (gk ks 0) < t)
    (hfuel : NOTE_SKIP_LIST_LEVELS + 6 * ks.length ≤ fuel) :
    ∃ j₀, j₀ < ks.length ∧
      search s fuel (gk ks 0) t (fun _ => gk ks 0) 0 = gk ks j₀ ∧
      endAt s (gk ks j₀) < t ∧
      (j₀ + 1 < ks.length → t ≤ endAt s (gk ks (j₀ + 1))) ∧
      (∀ jm, jm < ks.length → endAt s (gk ks jm) < t → jm ≤ j₀) ∧
      ∀ m, m < NOTE_SKIP_LIST_LEVELS → ∃ jm, jm ≤ j₀ ∧ jm < ks.length ∧
        search s fuel (gk ks 0) t (fun _ => gk ks 0) m = gk ks jm ∧
        endAt s (gk ks jm) < t ∧ GOODL s t (gk ks jm) m :=
  search_spec s ks t fuel hlinked hinv hlen hend hfuel

/-- Witness for C2 at a concrete two-node list: the chain `1, 2` built by
inserting `(1,2)` then `(3,4)` at level 0, searched with target 10. -/
theorem search_per_level_predecessors_witness :
    ∃ j₀, j₀ < ([1, 2] : List Nat).length ∧
      search (insertAll (initStore, emptyList) [(⟨1, 2⟩, 0), (⟨3, 4⟩, 0)]).1
          100 (gk [1, 2] 0) 10 (fun _ => gk [1, 2] 0) 0 = gk [1, 2] j₀ ∧
      endAt (insertAll (initStore, emptyList) [(⟨1, 2⟩, 0), (⟨3, 4⟩, 0)]).1
          (gk [1, 2] j₀) < 10 ∧
      (j₀ + 1 < ([1, 2] : List Nat).length →
        10 ≤ endAt (insertAll (initStore, emptyList)
          [(⟨1, 2⟩, 0), (⟨3, 4⟩, 0)]).1 (gk [1, 2] (j₀ + 1))) ∧
      (∀ jm, jm < ([1, 2] : List Nat).length →
        endAt (insertAll (initStore, emptyList)
          [(⟨1, 2⟩, 0), (⟨3, 4⟩, 0)]).1 (gk [1, 2] jm) < 10 → jm ≤ j₀) ∧
      ∀ m, m < NOTE_SKIP_LIST_LEVELS →
        ∃ jm, jm ≤ j₀ ∧ jm < ([1, 2] : List Nat).length ∧
          search (insertAll (initStore, emptyList)
            [(⟨1, 2⟩, 0), (⟨3, 4⟩, 0)]).1
            100 (gk [1, 2] 0) 10 (fun _ => gk [1, 2] 0) m = gk [1, 2] jm ∧
          endAt (insertAll (initStore, emptyList)
            [(⟨1, 2⟩, 0), (⟨3, 4⟩, 0)]).1 (gk [1, 2] jm) < 10 ∧
          GOODL (insertAll (initStore, emptyList)
            [(⟨1, 2⟩, 0), (⟨3, 4⟩, 0)]).1 10 (gk [1, 2] jm) m := by
  have hinv : Inv (insertAll (initStore, emptyList)
      [(⟨1, 2⟩, 0), (⟨3, 4⟩, 0)]).1 [1, 2] := by
    obtain ⟨ks', hlinked, hinv, _⟩ :=
      insertAll_spec [(⟨1, 2⟩, 0), (⟨3, 4⟩, 0)] initStore emptyList [] rfl
        (Inv_nil initStore) (by decide) (by decide) (by decide)
        (by intro p hp i hi; simp at hi)
    have hhk : (insertAll (initStore, emptyList)
        [(⟨1, 2⟩, 0), (⟨3, 4⟩, 0)]).2.head_key = some 1 := by decide
    rw [hhk] at hlinked
    have h2 : linked (insertAll (initStore, emptyList)
        [(⟨1, 2⟩, 0), (⟨3, 4⟩, 0)]).1 (some 1) [1, 2] := by decide
    obtain rfl := linked_unique ks' (some 1) [1, 2] hlinked h2
    exact hinv
  exact search_per_level_predecessors _ [1, 2] 10 100 (by decide) hinv
    (by decide) (by decide) (by decide)

/-- The list built by inserting the pairwise disjoint intervals `(1,2)` and
`(3,4)` at level 0 and `(5,6)` and `(7,8)` at level 1. -/
def probeStore : Store :=
  (insertAll (initStore, emptyList)
    [(⟨1, 2⟩, 0), (⟨3, 4⟩, 0), (⟨5, 6⟩, 1), (⟨7, 8⟩, 1)]).1

/-- Counterexample to C2 as stated.  `probeStore` is a reachable, well-formed
list: its level-0 chain from the head is `1, 2, 3, 4`, the stored intervals
are sorted and pairwise strictly disjoint, and the level-1 links `1 → 3 → 4`
all point forward along that chain.  Node 2 (interval `(3,4)`, end `4 < 10`)
has no level-1 link, so the level-1 chain reachable from node 2 is just node
2 itself; yet searching from node 2 with target 10 fills entry 1 of the
predecessor array with node 4 — not a member of that chain, hence not its
last node with end `< 10`.  (`search` jumps from 2 to 3 along level 0, then
restarts at the top level and takes node 3's level-1 shortcut.) -/
theorem search_per_level_counterexample :
    (insertAll (initStore, emptyList)
      [(⟨1, 2⟩, 0), (⟨3, 4⟩, 0), (⟨5, 6⟩, 1), (⟨7, 8⟩, 1)]).2.head_key =
      some 1 ∧
    linked probeStore (some 1) [1, 2, 3, 4] ∧
    List.Sorted noteLe ([1, 2, 3, 4].map (valAt probeStore)) ∧
    List.Pairwise strictDisj ([1, 2, 3, 4].map (valAt probeStore)) ∧
    linkAt probeStore 1 1 = some 3 ∧
    linkAt probeStore 3 1 = some 4 ∧
    linkAt probeStore 2 1 = none ∧
    endAt probeStore 2 < 10 ∧
    levelChain probeStore 1 (searchFuel probeStore) 2 = [2] ∧
    search probeStore (searchFuel probeStore) 2 10 (fun _ => 2) 1 = 4 ∧
    search probeStore (searchFuel probeStore) 2 10 (fun _ => 2) 1 ∉
      levelChain probeStore 1 (searchFuel probeStore) 2 := by
  decide

/-! ## `NoteLines::get_bounds` (claim C3) -/

theorem endAt_val (s : Store) (k : Nat) : (valAt s k).end_beat = endAt s k := rfl

theorem startAt_val (s : Store) (k : Nat) :
    (valAt s k).start_beat = startAt s k := rfl

/-- Reference definition following the claim's words, over the plain list of
the line's intervals: `none` when the point falls inside an existing interval
(containment inclusive of both endpoints); otherwise the lower bound is the
end of the nearest interval before the point (0 if there is none) and the
upper bound is the start of the nearest interval after the point (absent if
there is none). -/
def specGetBounds (notes : List NoteBox) (p : ℚ) : Option (ℚ × Option ℚ) :=
  if notes.any (fun nb => decide (nb.start_beat ≤ p ∧ p ≤ nb.end_beat)) then
    none
  else
    some
      (((notes.filter (fun nb => decide (nb.end_beat < p))).map
          NoteBox.end_beat).max?.getD 0,
       ((notes.filter (fun nb => decide (p < nb.start_beat))).map
          NoteBox.start_beat).min?)

theorem foldl_max_eq (x : ℚ) :
    ∀ (t : List ℚ) (a : ℚ), (x = a ∨ x ∈ t) → a ≤ x → (∀ y ∈ t, y ≤ x) →
      t.foldl max a = x := by
  intro t
  induction t with
  | nil =>
    intro a hx _ _
    rcases hx with hx | hx
    · simpa using hx.symm
    · simp at hx
  | cons b t ih =>
    intro a hx ha hy
    rw [List.foldl_cons]
    have hb : b ≤ x := hy b (List.mem_cons_self b t)
    refine ih (max a b) ?_ (max_le ha hb)
      (fun y hyt => hy y (List.mem_cons_of_mem _ hyt))
    rcases hx with hx | hx
    · left
      rw [show a = x from hx.symm]
      exact (max_eq_left hb).symm
    · rcases List.mem_cons.mp hx with hx | hx
      · left
        rw [show b = x from hx.symm]
        exact (max_eq_right ha).symm
      · right
        exact hx

theorem foldl_min_eq (x : ℚ) :
    ∀ (t : List ℚ) (a : ℚ), (x = a ∨ x ∈ t) → x ≤ a → (∀ y ∈ t, x ≤ y) →
      t.foldl min a = x := by
  intro t
  induction t with
  | nil =>
    intro a hx _ _
    rcases hx with hx | hx
    · simpa using hx.symm
    · simp at hx
  | cons b t ih =>
    intro a hx ha hy
    rw [List.foldl_cons]
    have hb : x ≤ b := hy b (List.mem_cons_self b t)
    refine ih (min a b) ?_ (le_min ha hb)
      (fun y hyt => hy y (List.mem_cons_of_mem _ hyt))
    rcases hx with hx | hx
    · left
      rw [show a = x from hx.symm]
      exact (min_eq_left hb).symm
    · rcases List.mem_cons.mp hx with hx | hx
      · left
        rw [show b = x from hx.symm]
        exact (min_eq_right ha).symm
      · right
        exact hx

theorem max?_eq_some_of (l : List ℚ) (x : ℚ) (hx : x ∈ l)
    (hub : ∀ y ∈ l, y ≤ x) : l.max? = some x := by
  cases l with
  | nil => simp at hx
  | cons a t =>
    show some (t.foldl max a) = some x
    refine congrArg some (foldl_max_eq x t a ?_
      (hub a (List.mem_cons_self a t))
      (fun y hy => hub y (List.mem_cons_of_mem _ hy)))
    rcases List.mem_cons.mp hx with h | h
    · exact Or.inl h
    · exact Or.inr h

theorem min?_eq_some_of (l : List ℚ) (x : ℚ) (hx : x ∈ l)
    (hlb : ∀ y ∈ l, x ≤ y) : l.min? = some x := by
  cases l with
  | nil => simp at hx
  | cons a t =>
    show some (t.foldl min a) = some x
    refine congrArg some (foldl_min_eq x t a ?_
      (hlb a (List.mem_cons_self a t))
      (fun y hy => hlb y (List.mem_cons_of_mem _ hy)))
    rcases List.mem_cons.mp hx with h | h
    · exact Or.inl h
    · exact Or.inr h

theorem ends_strictMono {s : Store} {ks : List Nat} (h : Inv s ks) :
    ∀ i j, i < j → j < ks.length → endAt s (gk ks i) < endAt s (gk ks j) :=
  fun i j hij hj => lt_of_lt_of_le (h.ordered i j hij hj) (h.wf j hj)

theorem starts_strictMono {s : Store} {ks : List Nat} (h : Inv s ks) :
    ∀ i j, i < j → j < ks.length →
      startAt s (gk ks i) < startAt s (gk ks j) :=
  fun i j hij hj =>
    lt_of_le_of_lt (h.wf i (lt_trans hij hj)) (h.ordered i j hij hj)

theorem mem_map_pos {s : Store} {ks : List Nat} {x : NoteBox}
    (hx : x ∈ ks.map (valAt s)) :
    ∃ i, i < ks.length ∧ x = valAt s (gk ks i) := by
  obtain ⟨i, hi, hxe⟩ := List.mem_iff_getElem.mp hx
  rw [List.length_map] at hi
  refine ⟨i, hi, ?_⟩
  rw [← hxe, List.getElem_map, gk_eq_getElem ks i hi]

theorem mem_map_take_pos {s : Store} {ks : List Nat} {n : Nat} {x : NoteBox}
    (hx : x ∈ (ks.map (valAt s)).take n) :
    ∃ i, i < n ∧ i < ks.length ∧ x = valAt s (gk ks i) := by
  obtain ⟨i, hi, hxe⟩ := List.mem_iff_getElem.mp hx
  have hi2 := hi
  rw [List.length_take, List.length_map] at hi2
  have hin : i < n := lt_of_lt_of_le hi2 (min_le_left _ _)
  have hilen : i < ks.length := lt_of_lt_of_le hi2 (min_le_right _ _)
  refine ⟨i, hin, hilen, ?_⟩
  rw [← hxe, List.getElem_take, List.getElem_map, gk_eq_getElem ks i hilen]

theorem mem_map_drop_pos {s : Store} {ks : List Nat} {n : Nat} {x : NoteBox}
    (hx : x ∈ (ks.map (valAt s)).drop n) :
    ∃ i, n ≤ i ∧ i < ks.length ∧ x = valAt s (gk ks i) := by
  obtain ⟨i, hi, hxe⟩ := List.mem_iff_getElem.mp hx
  have hi2 := hi
  rw [List.length_drop, List.length_map] at hi2
  refine ⟨n + i, Nat.le_add_right n i, by omega, ?_⟩
  rw [← hxe, List.getElem_drop, List.getElem_map,
    gk_eq_getElem ks (n + i) (by omega)]

theorem valAt_mem_map (s : Store) (ks : List Nat) (i : Nat)
    (hi : i < ks.length) : valAt s (gk ks i) ∈ ks.map (valAt s) := by
  refine List.mem_iff_getElem.mpr ⟨i, by rw [List.length_map]; exact hi, ?_⟩
  rw [List.getElem_map, gk_eq_getElem ks i hi]

theorem valAt_mem_map_take (s : Store) (ks : List Nat) (n i : Nat)
    (hin : i < n) (hilen : i < ks.length) :
    valAt s (gk ks i) ∈ (ks.map (valAt s)).take n := by
  have hlt : i < ((ks.map (valAt s)).take n).length := by
    rw [List.length_take, List.length_map]
    exact lt_min hin hilen
  refine List.mem_iff_getElem.mpr ⟨i, hlt, ?_⟩
  rw [List.getElem_take, List.getElem_map, gk_eq_getElem ks i hilen]

theorem any_contains_false (s : Store) (ks : List Nat) (beat : ℚ)
    (h : ∀ i, i < ks.length →
      ¬ (startAt s (gk ks i) ≤ beat ∧ beat ≤ endAt s (gk ks i))) :
    ((ks.map (valAt s)).any
      (fun nb => decide (nb.start_beat ≤ beat ∧ beat ≤ nb.end_beat))) =
      false := by
  refine List.any_eq_false.mpr ?_
  intro x hx
  obtain ⟨i, hilen, rfl⟩ := mem_map_pos hx
  simpa [startAt_val, endAt_val] using h i hilen

theorem filter_ends_take (s : Store) (ks : List Nat) (beat : ℚ) (n : Nat)
    (hn : n ≤ ks.length)
    (hlt : ∀ i, i < n → endAt s (gk ks i) < beat)
    (hge : ∀ i, n ≤ i → i < ks.length → ¬ endAt s (gk ks i) < beat) :
    (ks.map (valAt s)).filter (fun nb => decide (nb.end_beat < beat)) =
      (ks.map (valAt s)).take n := by
  conv_lhs => rw [← List.take_append_drop n (ks.map (valAt s))]
  rw [List.filter_append]
  have h1 : ((ks.map (valAt s)).take n).filter
      (fun nb => decide (nb.end_beat < beat)) =
      (ks.map (valAt s)).take n := by
    refine List.filter_eq_self.mpr ?_
    intro a ha
    obtain ⟨i, hin, hilen, rfl⟩ := mem_map_take_pos ha
    simpa [endAt_val] using hlt i hin
  have h2 : ((ks.map (valAt s)).drop n).filter
      (fun nb => decide (nb.end_beat < beat)) = [] := by
    refine List.filter_eq_nil_iff.mpr ?_
    intro a ha
    obtain ⟨i, hni, hilen, rfl⟩ := mem_map_drop_pos ha
    simpa [endAt_val] using hge i hni hilen
  rw [h1, h2, List.append_nil]

theorem filter_starts_drop (s : Store) (ks : List Nat) (beat : ℚ) (n : Nat)
    (hn : n ≤ ks.length)
    (hle : ∀ i, i < n → i < ks.length → ¬ beat < startAt s (gk ks i))
    (hgt : ∀ i, n ≤ i → i < ks.length → beat < startAt s (gk ks i)) :
    (ks.map (valAt s)).filter (fun nb => decide (beat < nb.start_beat)) =
      (ks.map (valAt s)).drop n := by
  conv_lhs => rw [← List.take_append_drop n (ks.map (valAt s))]
  rw [List.filter_append]
  have h1 : ((ks.map (valAt s)).take n).filter
      (fun nb => decide (beat < nb.start_beat)) = [] := by
    refine List.filter_eq_nil_iff.mpr ?_
    intro a ha
    obtain ⟨i, hin, hilen, rfl⟩ := mem_map_take_pos ha
    simpa [startAt_val] using hle i hin hilen
  have h2 : ((ks.map (valAt s)).drop n).filter
      (fun nb => decide (beat < nb.start_beat)) =
      (ks.map (valAt s)).drop n := by
    refine List.filter_eq_self.mpr ?_
    intro a ha
    obtain ⟨i, hni, hilen, rfl⟩ := mem_map_drop_pos ha
    simpa [startAt_val] using hgt i hni hilen
  rw [h1, h2, List.nil_append]

theorem lo_take_max (s : Store) (ks : List Nat) (n : Nat) (hinv : Inv s ks)
    (hn : 0 < n) (hnlen : n ≤ ks.length) :
    (((ks.map (valAt s)).take n).map NoteBox.end_beat).max? =
      some (endAt s (gk ks (n - 1))) := by
  apply max?_eq_some_of
  · have hmem := valAt_mem_map_take s ks n (n - 1) (by omega) (by omega)
    simpa [endAt_val] using List.mem_map_of_mem NoteBox.end_beat hmem
  · intro y hy
    obtain ⟨x, hx, rfl⟩ := List.mem_map.mp hy
    obtain ⟨i, hin, hilen, rfl⟩ := mem_map_take_pos hx
    rw [endAt_val]
    rcases Nat.lt_or_ge i (n - 1) with h | h
    · exact le_of_lt (ends_strictMono hinv i (n - 1) h (by omega))
    · exact le_of_eq (by rw [show i = n - 1 from by omega])

theorem hi_drop_min (s : Store) (ks : List Nat) (n : Nat) (hinv : Inv s ks)
    (hnlen : n < ks.length) :
    (((ks.map (valAt s)).drop n).map NoteBox.start_beat).min? =
      some (startAt s (gk ks n)) := by
  apply min?_eq_some_of
  · have hmem : valAt s (gk ks n) ∈ (ks.map (valAt s)).drop n := by
      refine List.mem_iff_getElem.mpr ⟨0, ?_, ?_⟩
      · rw [List.length_drop, List.length_map]
        omega
      · rw [List.getElem_drop, List.getElem_map, gk_eq_getElem ks n hnlen]
        rfl
    simpa [startAt_val] using List.mem_map_of_mem NoteBox.start_beat hmem
  · intro y hy
    obtain ⟨x, hx, rfl⟩ := List.mem_map.mp hy
    obtain ⟨i, hni, hilen, rfl⟩ := mem_map_drop_pos hx
    rw [startAt_val]
    rcases Nat.lt_or_ge n i with h | h
    · exact le_of_lt (starts_strictMono hinv n i h hilen)
    · exact le_of_eq (by rw [show i = n from by omega])

/-- `get_bounds` with its `let` bindings inlined. -/
theorem get_bounds_eq (s : Store) (nl : NoteLines) (line_ix : Nat)
    (beat : ℚ) :
    get_bounds s nl line_ix beat =
      match (nl.lines.getD line_ix emptyList).head_key with
      | none => some (0, none)
      | some head_key =>
        if contains_beat s head_key beat then none
        else if beat < startAt s head_key then
          some (0, some (startAt s head_key))
        else
          match linkAt s (search s (searchFuel s) head_key beat
              (fun _ => head_key) 0) 0 with
          | none => some (endAt s (search s (searchFuel s) head_key beat
              (fun _ => head_key) 0), none)
          | some following_key =>
            if contains_beat s following_key beat then none
            else some (endAt s (search s (searchFuel s) head_key beat
              (fun _ => head_key) 0), some (startAt s following_key)) := rfl

/-- C3 (refinement): on every line whose level-0 chain is a well-formed
skip-list chain (links spell out the chain, handles and payloads in bounds,
intervals well formed, pairwise strictly disjoint in chain order, links
forward), `get_bounds` computes exactly the reference reading of the claim:
`none` exactly when the queried point lies inside an interval on the line
(containment inclusive of both endpoints), and otherwise the pair of the
greatest interval end below the point (0 if none) and the least interval
start above the point (absent if none).  (The unamended claim, over every
line of a `NoteLines` index, fails for lines holding overlapping intervals
— see the counterexample.) -/
theorem get_bounds_spec (s : Store) (nl : NoteLines) (line_ix : Nat)
    (beat : ℚ) (ks : List Nat)
    (hlinked : linked s (nl.lines.getD line_ix emptyList).head_key ks)
    (hinv : Inv s ks) :
    get_bounds s nl line_ix beat = specGetBounds (ks.map (valAt s)) beat := by
  by_cases hne : ks = []
  · subst hne
    have hhead : (nl.lines.getD line_ix emptyList).head_key = none := hlinked
    simp only [get_bounds_eq, hhead]
    rfl
  · have hlen : 0 < ks.length := List.length_pos.mpr hne
    have hhead : (nl.lines.getD line_ix emptyList).head_key =
        some (gk ks 0) := by
      have hh := linked_head hlinked
      rw [if_neg (by omega)] at hh
      exact hh
    rw [hhead] at hlinked
    simp only [get_bounds_eq, hhead]
    by_cases hc : contains_beat s (gk ks 0) beat
    · rw [if_pos hc]
      have hany : ((ks.map (valAt s)).any
          (fun nb => decide (nb.start_beat ≤ beat ∧ beat ≤ nb.end_beat))) =
          true := by
        refine List.any_eq_true.mpr ⟨valAt s (gk ks 0),
          valAt_mem_map s ks 0 hlen, ?_⟩
        simpa [contains_beat, startAt_val, endAt_val] using hc
      unfold specGetBounds
      rw [if_pos hany]
    · rw [if_neg hc]
      by_cases hb : beat < startAt s (gk ks 0)
      · rw [if_pos hb]
        have hstarts : ∀ i, i < ks.length → beat < startAt s (gk ks i) := by
          intro i hi
          rcases Nat.eq_zero_or_pos i with rfl | hpos
          · exact hb
          · exact lt_trans hb (starts_strictMono hinv 0 i hpos hi)
        have hanyf := any_contains_false s ks beat
          (fun i hi hcon => absurd hcon.1 (not_le.mpr (hstarts i hi)))
        have hnot : ¬ ((ks.map (valAt s)).any
            (fun nb => decide (nb.start_beat ≤ beat ∧ beat ≤ nb.end_beat)) =
            true) := by rw [hanyf]; simp
        have hfe := filter_ends_take s ks beat 0 (Nat.zero_le _)
          (fun i hi => absurd hi (by omega))
          (fun i _ hi => not_lt.mpr
            (le_of_lt (lt_of_lt_of_le (hstarts i hi) (hinv.wf i hi))))
        have hfs := filter_starts_drop s ks beat 0 (Nat.zero_le _)
          (fun i hi _ => absurd hi (by omega))
          (fun i _ hi => hstarts i hi)
        have hhi := hi_drop_min s ks 0 hinv hlen
        unfold specGetBounds
        rw [if_neg hnot, hfe, hfs, hhi, List.take_zero, List.map_nil]
        rfl
      · rw [if_neg hb]
        push_neg at hb
        have hend0 : endAt s (gk ks 0) < beat := by
          rcases not_and_or.mp hc with h | h
          · exact absurd hb h
          · exact not_le.mp h
        have hfuel : NOTE_SKIP_LIST_LEVELS + 6 * ks.length ≤ searchFuel s := by
          have hll := hinv.length_le
          simp only [searchFuel, NOTE_SKIP_LIST_LEVELS] at *
          omega
        obtain ⟨j₀, hj₀, hs0, hej₀, hnext, hmax, hall⟩ :=
          search_spec s ks beat (searchFuel s) hlinked hinv hlen hend0 hfuel
        rw [hs0]
        have hple : ∀ i, i ≤ j₀ → endAt s (gk ks i) < beat := by
          intro i hi
          rcases Nat.eq_or_lt_of_le hi with h | h
          · rw [h]
            exact hej₀
          · exact lt_trans (ends_strictMono hinv i j₀ h hj₀) hej₀
        cases hlink : linkAt s (gk ks j₀) 0 with
        | none =>
          show some (endAt s (gk ks j₀), none) =
            specGetBounds (ks.map (valAt s)) beat
          have hjlast : j₀ = ks.length - 1 := by
            by_contra hne2
            have hj1 : j₀ + 1 < ks.length := by omega
            have hlk := linked_link hlinked j₀ hj1
            rw [hlink] at hlk
            simp at hlk
          have hall_end : ∀ i, i < ks.length → endAt s (gk ks i) < beat :=
            fun i hi => hple i (by omega)
          have hanyf := any_contains_false s ks beat
            (fun i hi hcon => absurd hcon.2 (not_le.mpr (hall_end i hi)))
          have hnot : ¬ ((ks.map (valAt s)).any
              (fun nb => decide (nb.start_beat ≤ beat ∧ beat ≤ nb.end_beat)) =
              true) := by rw [hanyf]; simp
          have hfe := filter_ends_take s ks beat ks.length (le_refl _)
            (fun i hi => hall_end i hi)
            (fun i hni hi => absurd hi (by omega))
          have hfs := filter_starts_drop s ks beat ks.length (le_refl _)
            (fun i _ hi => not_lt.mpr
              (le_of_lt (lt_of_le_of_lt (hinv.wf i hi) (hall_end i hi))))
            (fun i hni hi => absurd hi (by omega))
          have hlo := lo_take_max s ks ks.length hinv hlen (le_refl _)
          have hdropnil : (ks.map (valAt s)).drop ks.length = [] := by
            rw [show ks.length = (ks.map (valAt s)).length from
              (List.length_map _ _).symm]
            exact List.drop_length _
          rw [hjlast]
          unfold specGetBounds
          rw [if_neg hnot, hfe, hfs, hlo, hdropnil, List.map_nil]
          rfl
        | some fk =>
          have hj1 : j₀ + 1 < ks.length := by
            by_contra hge2
            have hlast := linked_last hlinked hlen
            rw [show ks.length - 1 = j₀ from by omega] at hlast
            rw [hlink] at hlast
            simp at hlast
          have hfk : fk = gk ks (j₀ + 1) := by
            have hlk := linked_link hlinked j₀ hj1
            rw [hlink] at hlk
            simpa using hlk
          subst hfk
          show (if contains_beat s (gk ks (j₀ + 1)) beat then none
            else some (endAt s (gk ks j₀),
              some (startAt s (gk ks (j₀ + 1))))) =
            specGetBounds (ks.map (valAt s)) beat
          have hble : beat ≤ endAt s (gk ks (j₀ + 1)) := hnext hj1
          by_cases hcf : contains_beat s (gk ks (j₀ + 1)) beat
          · rw [if_pos hcf]
            have hany : ((ks.map (valAt s)).any
                (fun nb => decide
                  (nb.start_beat ≤ beat ∧ beat ≤ nb.end_beat))) = true := by
              refine List.any_eq_true.mpr ⟨valAt s (gk ks (j₀ + 1)),
                valAt_mem_map s ks (j₀ + 1) hj1, ?_⟩
              simpa [contains_beat, startAt_val, endAt_val] using hcf
            unfold specGetBounds
            rw [if_pos hany]
          · rw [if_neg hcf]
            have hbstart : beat < startAt s (gk ks (j₀ + 1)) := by
              rcases not_and_or.mp hcf with h | h
              · exact not_le.mp h
              · exact absurd hble h
            have hafter : ∀ i, j₀ + 1 ≤ i → i < ks.length →
                beat < startAt s (gk ks i) := by
              intro i hi hilen
              rcases Nat.eq_or_lt_of_le hi with rfl | h
              · exact hbstart
              · exact lt_trans hbstart
                  (starts_strictMono hinv (j₀ + 1) i h hilen)
            have hanyf := any_contains_false s ks beat (by
              intro i hi hcon
              rcases le_or_lt i j₀ with h | h
              · exact absurd hcon.2 (not_le.mpr (hple i h))
              · exact absurd hcon.1 (not_le.mpr (hafter i (by omega) hi)))
            have hnot : ¬ ((ks.map (valAt s)).any
                (fun nb => decide
                  (nb.start_beat ≤ beat ∧ beat ≤ nb.end_beat)) = true) := by
              rw [hanyf]; simp
            have hfe := filter_ends_take s ks beat (j₀ + 1) (by omega)
              (fun i hi => hple i (by omega))
              (by
                intro i hni hilen
                rcases Nat.eq_or_lt_of_le hni with rfl | h
                · exact not_lt.mpr hble
                · exact not_lt.mpr (le_of_lt (lt_of_le_of_lt hble
                    (ends_strictMono hinv (j₀ + 1) i h hilen))))
            have hfs := filter_starts_drop s ks beat (j₀ + 1) (by omega)
              (fun i hi hilen => not_lt.mpr
                (le_of_lt (lt_of_le_of_lt (hinv.wf i hilen)
                  (hple i (by omega)))))
              (fun i hni hilen => hafter i hni hilen)
            have hlo := lo_take_max s ks (j₀ + 1) hinv (by omega) (by omega)
            have hhi := hi_drop_min s ks (j₀ + 1) hinv hj1
            unfold specGetBounds
            rw [if_neg hnot, hfe, hfs, hlo, hhi]
            rfl

/-- Witness for C3 at a concrete line: two disjoint intervals `(1,2)` and
`(4,6)`, queried in the gap at 3; the code and the reference reading
agree, returning the free interval `(2, Some 3)`. -/
theorem get_bounds_spec_witness :
    get_bounds (insertAll (initStore, emptyList)
        [(⟨1, 2⟩, 0), (⟨4, 6⟩, 0)]).1
      ⟨[(insertAll (initStore, emptyList) [(⟨1, 2⟩, 0), (⟨4, 6⟩, 0)]).2]⟩ 0
      3 =
      specGetBounds ([1, 2].map (valAt (insertAll (initStore, emptyList)
        [(⟨1, 2⟩, 0), (⟨4, 6⟩, 0)]).1)) 3 ∧
    get_bounds (insertAll (initStore, emptyList)
        [(⟨1, 2⟩, 0), (⟨4, 6⟩, 0)]).1
      ⟨[(insertAll (initStore, emptyList) [(⟨1, 2⟩, 0), (⟨4, 6⟩, 0)]).2]⟩ 0
      3 = some (2, some 4) := by
  constructor
  · have hinv : Inv (insertAll (initStore, emptyList)
        [(⟨1, 2⟩, 0), (⟨4, 6⟩, 0)]).1 [1, 2] := by
      obtain ⟨ks', hlinked, hinv, _⟩ :=
        insertAll_spec [(⟨1, 2⟩, 0), (⟨4, 6⟩, 0)] initStore emptyList [] rfl
          (Inv_nil initStore) (by decide) (by decide) (by decide)
          (by intro p hp i hi; simp at hi)
      have hhk : (insertAll (initStore, emptyList)
          [(⟨1, 2⟩, 0), (⟨4, 6⟩, 0)]).2.head_key = some 1 := by decide
      rw [hhk] at hlinked
      have h2 : linked (insertAll (initStore, emptyList)
          [(⟨1, 2⟩, 0), (⟨4, 6⟩, 0)]).1 (some 1) [1, 2] := by decide
      obtain rfl := linked_unique ks' (some 1) [1, 2] hlinked h2
      exact hinv
    exact get_bounds_spec _ _ 0 3 [1, 2] (by decide) hinv
  · decide

/-- Counterexample to C3 as stated: the line built by inserting `(0,10)` and
then the overlapping `(5,6)` holds the interval `(0,10)`, and the point 3
falls inside it, so the claim demands `None`; but the chain is `(5,6)` then
`(0,10)`, the head does not contain 3 and starts after it, so `get_bounds`
returns `Some (0, Some 5)` — it reports a free gap where there is none, and
disagrees with the reference reading of the claim. -/
theorem get_bounds_counterexample :
    (⟨0, 10⟩ : NoteBox) ∈ toList (insertAll (initStore, emptyList)
        [(⟨0, 10⟩, 0), (⟨5, 6⟩, 0)]).1
      (insertAll (initStore, emptyList) [(⟨0, 10⟩, 0), (⟨5, 6⟩, 0)]).2 ∧
    ((0 : ℚ) ≤ 3 ∧ (3 : ℚ) ≤ 10) ∧
    get_bounds (insertAll (initStore, emptyList)
        [(⟨0, 10⟩, 0), (⟨5, 6⟩, 0)]).1
      ⟨[(insertAll (initStore, emptyList) [(⟨0, 10⟩, 0), (⟨5, 6⟩, 0)]).2]⟩ 0
      3 = some (0, some 5) ∧
    specGetBounds (toList (insertAll (initStore, emptyList)
        [(⟨0, 10⟩, 0), (⟨5, 6⟩, 0)]).1
      (insertAll (initStore, emptyList) [(⟨0, 10⟩, 0), (⟨5, 6⟩, 0)]).2) 3 =
      none := by
  decide

/-! ## Debug rendering (claim C8) -/

/-- Level loop of `impl Debug for NoteSkipListNode` (the
`links.iter().enumerate().rev()` pass): for each level, decide whether the
rendered slot carries an arrowhead, and, when the level's debug cursor
(`SKIP_LIST_NODE_DEBUG_POINTERS`) points at this node's payload, emit the
interval text and advance that cursor to this node's level link.  The
interval formatter parameter stands in for the `Debug` impl of `NoteBox`,
whose code is outside this file's sources.  (The `debug_assert_eq!`
consistency loop performs no state change and is omitted, as in the other
modelled functions.) -/
def dbgLinksGo (fmtNote : NoteBox → String) (s : Store) (k : Nat) :
    List Nat → (Nat → Option Nat) →
      List (Option String × Bool) × (Nat → Option Nat)
  | [], dbg => ([], dbg)
  | level :: rest, dbg =>
    let node := nodeAt s k
    let next_node := node.links 0
    let next_valid := dbg level
    let has_next : Bool :=
      match next_node, node.links level with
      | none, _ => true
      | some next_link, some our_link => next_link == our_link
      | _, _ =>
        match next_valid, next_node with
        | some expected, some nn => expected == nn
        | _, _ => false
    if next_valid.map (fun p => (nodeAt s p).val_slot_key) =
        some node.val_slot_key then
      let dbg2 := fun m => if m = level then node.links level else dbg m
      let res := dbgLinksGo fmtNote s k rest dbg2
      ((some (fmtNote (valAt s k)), has_next) :: res.1, res.2)
    else
      let res := dbgLinksGo fmtNote s k rest dbg
      ((none, has_next) :: res.1, res.2)

/-- `impl Debug for NoteSkipListNode`: render the node's five level slots
(top level first), padding every slot to the longest emitted interval text
and drawing `>` arrowheads where the level continues. -/
def fmtNode (fmtNote : NoteBox → String) (s : Store) (k : Nat)
    (dbg : Nat → Option Nat) : String × (Nat → Option Nat) :=
  let res := dbgLinksGo fmtNote s k
    (List.range NOTE_SKIP_LIST_LEVELS).reverse dbg
  let longest := (res.1.filterMap Prod.fst).foldl
    (fun m ls => max m ls.length) 0
  let padding := String.mk (List.replicate (longest + 1) '-')
  let lineOf := fun (p : Option String × Bool) =>
    match p.1 with
    | some ls =>
      ls ++ String.mk (List.replicate (longest - ls.length + 1) '-') ++
        (if p.2 then (">") else ("-"))
    | none => padding ++ (if p.2 then (">") else ("-"))
  (String.intercalate ("\n") (res.1.map lineOf), res.2)

/-- Node loop of `impl Debug for NoteSkipList`: render every node along the
level-0 chain, threading the debug cursors; fuel as in `toList`. -/
def fmtListGo (fmtNote : NoteBox → String) (s : Store) :
    Nat → Option Nat → (Nat → Option Nat) →
      List String × (Nat → Option Nat)
  | _, none, dbg => ([], dbg)
  | 0, some _, dbg => ([], dbg)
  | fuel + 1, some k, dbg =>
    let res := fmtNode fmtNote s k dbg
    let rest := fmtListGo fmtNote s fuel (linkAt s k 0) res.2
    (res.1 :: rest.1, rest.2)

/-- `impl Debug for NoteSkipList`: initialize every debug cursor to the head
(when there is one), render the nodes in chain order, then stitch the i-th
line of every node's rendering together and terminate each level line with
`x`. -/
def fmtList (fmtNote : NoteBox → String) (s : Store) (l : NoteSkipList)
    (dbg : Nat → Option Nat) : String × (Nat → Option Nat) :=
  let dbg0 := match l.head_key with
    | some hk => fun _ => some hk
    | none => dbg
  let res := fmtListGo fmtNote s s.nodes.length l.head_key dbg0
  let node_debug_lines := res.1.map (fun ds => String.splitOn ds ("\n"))
  let lineFor := fun (i : Nat) =>
    String.join (node_debug_lines.map (fun dc => dc.getD i (""))) ++ ("x")
  (String.intercalate ("\n")
    ((List.range NOTE_SKIP_LIST_LEVELS).map lineFor), res.2)

/-- The rendering pass over the full program state: the arena store and the
list are read, the per-level debug cursors are read and written. -/
def renderDebug (fmtNote : NoteBox → String)
    (w : Store × NoteSkipList × (Nat → Option Nat)) :
    String × (Store × NoteSkipList × (Nat → Option Nat)) :=
  ((fmtList fmtNote w.1 w.2.1 w.2.2).1,
    (w.1, w.2.1, (fmtList fmtNote w.1 w.2.1 w.2.2).2))

/-- C8: producing the textual debug rendering never influences list
semantics — for every store, list, cursor state and interval formatter, the
state after rendering has the same head handle, the same stored intervals,
the same node records (payload handles and all per-level links), and the
same iteration result as before; only the transient per-level debug cursors
are touched. -/
theorem debug_render_frame (fmtNote : NoteBox → String) (s : Store)
    (l : NoteSkipList) (dbg : Nat → Option Nat) :
    (renderDebug fmtNote (s, l, dbg)).2.1 = s ∧
    (renderDebug fmtNote (s, l, dbg)).2.2.1 = l ∧
    (renderDebug fmtNote (s, l, dbg)).2.2.1.head_key = l.head_key ∧
    (renderDebug fmtNote (s, l, dbg)).2.1.notes = s.notes ∧
    (renderDebug fmtNote (s, l, dbg)).2.1.nodes = s.nodes ∧
    (∀ k lvl,
      linkAt (renderDebug fmtNote (s, l, dbg)).2.1 k lvl = linkAt s k lvl) ∧
    toList (renderDebug fmtNote (s, l, dbg)).2.1
      (renderDebug fmtNote (s, l, dbg)).2.2.1 = toList s l :=
  ⟨rfl, rfl, rfl, rfl, rfl, fun k lvl => rfl, rfl⟩

/-- Executable check of the renderer on the two-node list built by inserting
`(1,2)` at level 0 and `(3,4)` at level 1, with a fixed-width interval
formatter: the first node renders with its two bottom levels linked and the
second with arrowheads into the terminator on every level, matching the
shape of the picture in the source's doc comment. -/
theorem fmtListGo_sample :
    (fmtListGo (fun _ => ("N"))
      (insertAll (initStore, emptyList) [(⟨1, 2⟩, 0), (⟨3, 4⟩, 1)]).1
      (insertAll (initStore, emptyList)
        [(⟨1, 2⟩, 0), (⟨3, 4⟩, 1)]).1.nodes.length
      (insertAll (initStore, emptyList) [(⟨1, 2⟩, 0), (⟨3, 4⟩, 1)]).2.head_key
      (fun _ => some 1)).1 =
      ["N--\nN--\nN--\nN->\nN->", "-->\n-->\n-->\nN->\nN->"] := by rfl

end SkipListModel
